import Mathlib

/-!
Verification of the DCL network peer-discovery scripts
(`discover_peers.py`, CLI variant, and `peer_network.py`, web-server variant).

The Python sources are shallowly embedded: dictionaries become ordered
association lists, sets become lists with membership tests, the RPC calls
become an oracle (`Rpc`) mapping an address to the parsed response, the
thread pools become an arbitrary serialization of the dispatched tasks,
and the crawl loops become fuel-indexed recursions that stop as soon as
the frontier is empty.
-/

/-! ### String helpers

Python's `str.startswith`, `in` (substring), `str.endswith`,
`str.split("-")[0]`, `str.split(":")[0]`, `str.split("//")[1]` and
`str.replace` are modelled on `List Char` so that every definition
evaluates inside the kernel. -/

/-- `strStartsL p s` : the char list `p` is a prefix of `s`
(Python `s.startswith(p)` with `s`, `p` exploded to chars). -/
def strStartsL : List Char → List Char → Bool
  | [], _ => true
  | _ :: _, [] => false
  | p :: ps, c :: cs => p == c && strStartsL ps cs

/-- `hasSubstrL p s` : `p` occurs as a contiguous substring of `s`
(Python `p in s`). -/
def hasSubstrL (p : List Char) : List Char → Bool
  | [] => strStartsL p []
  | c :: cs => strStartsL p (c :: cs) || hasSubstrL p cs

/-- Python `s.startswith(p)`. -/
def strStarts (s p : String) : Bool := strStartsL p.data s.data

/-- Python `p in s` (substring containment). -/
def strContains (s p : String) : Bool := hasSubstrL p.data s.data

/-- Python `s.endswith(p)`. -/
def strEnds (s p : String) : Bool := strStartsL p.data.reverse s.data.reverse

/-- Lexicographic (code-point) strict comparison of char lists — the
order Python uses to compare strings. -/
def strLtL : List Char → List Char → Bool
  | [], [] => false
  | [], _ :: _ => true
  | _ :: _, [] => false
  | a :: as, b :: bs => decide (a < b) || (a == b && strLtL as bs)

/-- Python `a < b` on strings. -/
def strLt (a b : String) : Bool := strLtL a.data b.data

/-- Python `s.lower()` (ASCII case folding — the monikers in play are
ASCII, where Python's and this folding agree). -/
def strToLower (s : String) : String := ⟨s.data.map Char.toLower⟩

/-- Chars before the first `-` (Python `s.split("-")[0]`). -/
def beforeHyphen : List Char → List Char
  | [] => []
  | c :: cs => if c == '-' then [] else c :: beforeHyphen cs

/-- Chars before the first `:` (Python `s.split(":")[0]`). -/
def untilColon : List Char → List Char
  | [] => []
  | c :: cs => if c == ':' then [] else c :: untilColon cs

/-- Chars after the first `//` (Python `s.split("//")[1]`, then cut at the
next `//` — the later `split(":")[0]` makes the difference irrelevant for
the URLs used here; if no `//` occurs the model yields `[]`). -/
def afterDoubleSlash : List Char → List Char
  | [] => []
  | '/' :: '/' :: rest => rest
  | _ :: rest => afterDoubleSlash rest

/-- Replace every occurrence of the non-empty pattern `pat` by `rep`
(Python `s.replace(pat, rep)`), with explicit fuel ≥ length of `s`. -/
def replaceAux (pat rep : List Char) : Nat → List Char → List Char
  | 0, s => s
  | _ + 1, [] => []
  | fuel + 1, c :: cs =>
    if strStartsL pat (c :: cs) && !pat.isEmpty then
      rep ++ replaceAux pat rep fuel (List.drop (pat.length - 1) cs)
    else
      c :: replaceAux pat rep fuel cs

/-- Python `s.replace(pat, rep)` for a non-empty pattern. -/
def strReplace (s pat rep : String) : String :=
  ⟨replaceAux pat.data rep.data s.data.length s.data⟩

/-! ### `is_private_ip` (discover_peers.py lines 28-37, peer_network.py lines 36-45)

The two files contain the identical function. -/

/-- Source translation of `is_private_ip`: note the bare `"172.2"` prefix
test in the middle of the explicitly enumerated `172.16.`–`172.31.` range. -/
def is_private_ip (ip : String) : Bool :=
  strStarts ip "10." ||
  strStarts ip "172.16." || strStarts ip "172.17." ||
  strStarts ip "172.18." || strStarts ip "172.19." ||
  strStarts ip "172.2" || strStarts ip "172.30." || strStarts ip "172.31." ||
  strStarts ip "192.168." ||
  strStarts ip "127."

/-- Modelled from the spec: the private/loopback prefixes the specification
enumerates — `10.`, `172.16.` through `172.31.`, `192.168.`, `127.`.
This is the comparison definition for the refinement claim about address
filtering, written from the spec's words, not from the code. -/
def specPrivatePrefixes : List String :=
  ["10.",
   "172.16.", "172.17.", "172.18.", "172.19.", "172.20.", "172.21.",
   "172.22.", "172.23.", "172.24.", "172.25.", "172.26.", "172.27.",
   "172.28.", "172.29.", "172.30.", "172.31.",
   "192.168.", "127."]

/-- Modelled from the spec: an address is spec-private iff it begins with
one of the enumerated private/loopback prefixes. -/
def spec_private_ip (ip : String) : Bool :=
  specPrivatePrefixes.any (fun p => strStarts ip p)

/-! ### Node classifier (`get_node_type`, `get_org`) -/

/-- Source translation of `get_node_type` (moniker → role tag). -/
def get_node_type (moniker : String) : String :=
  let m := strToLower moniker
  if strContains m "-vn-" || strEnds m "-vn" then "validator"
  else if strContains m "-sn-" || strContains m "sentry" then "sentry"
  else if strContains m "-on-" || strContains m "observer" then "observer"
  else if strContains m "seed" then "seed"
  else "unknown"

/-- Source translation of `get_org` (moniker → organization tag). -/
def get_org (moniker : String) : String :=
  if strContains moniker "-" then ⟨beforeHyphen moniker.data⟩ else moniker

/-- C4: the code classifies `172.2.5.1` as private although it is outside
every prefix range the spec enumerates (`172.2.` is not among
`172.16.`–`172.31.`); same for `172.200.0.1`. -/
theorem c4_private_filter_bug :
    is_private_ip "172.2.5.1" = true ∧ spec_private_ip "172.2.5.1" = false ∧
    is_private_ip "172.200.0.1" = true ∧ spec_private_ip "172.200.0.1" = false := by
  decide

/-! ### Shared data model -/

/-- One entry of the `/net_info` peers array: `peer["node_info"]["id"]`,
`peer["node_info"]["moniker"]`, `peer["node_info"]["version"]`,
`peer["remote_ip"]`.  Missing JSON keys are `none`. -/
structure PeerEntry where
  id : Option String
  moniker : Option String
  version : Option String
  remote_ip : Option String
deriving DecidableEq

/-- Parsed `/status` response as built by `query_status`. -/
structure StatusRec where
  id : Option String
  moniker : Option String
  version : Option String
  height : Option String
deriving DecidableEq

/-- The RPC query interface as an oracle: `net addr` is the peer list
returned by `query_net_info(addr)` (empty on failure), `statusOf addr`
models `query_status(addr)` (`none` on failure) and `abci addr` models
`query_abci_info(addr)`. -/
structure Rpc where
  net : String → List PeerEntry
  statusOf : String → Option StatusRec
  abci : String → Option String

/-- An edge record `{"source": ..., "target": ...}`. -/
structure Edge where
  source : String
  target : String
deriving DecidableEq

/-- Python truthiness of an optional string (`None` and `""` are falsy). -/
def isTruthy : Option String → Bool
  | none => false
  | some s => s != ""

/-- Python dict lookup on an insertion-ordered association list. -/
def dictGet {α : Type} : List (String × α) → String → Option α
  | [], _ => none
  | (k, v) :: rest, key => if k = key then some v else dictGet rest key

/-- Apply `f` to the value stored under `key` (no-op if absent). -/
def dictUpdate {α : Type} (l : List (String × α)) (key : String) (f : α → α) :
    List (String × α) :=
  l.map (fun kv => if kv.1 = key then (kv.1, f kv.2) else kv)

/-- Python dict assignment `d[key] = v`: replace in place if the key is
present (keeping its position), otherwise append. -/
def dictSet {α : Type} : List (String × α) → String → α → List (String × α)
  | [], key, v => [(key, v)]
  | (k, w) :: rest, key, v =>
    if k = key then (k, v) :: rest else (k, w) :: dictSet rest key v

/-- The keys of an association list, in insertion order. -/
def dictKeys {α : Type} (l : List (String × α)) : List String := l.map Prod.fst

/-- Python `tuple(sorted([a, b]))` on two strings (lexicographic by code
point, which is exactly the order on `String`). -/
def sortPair (a b : String) : String × String :=
  if strLt b a then (b, a) else (a, b)

/-- The RPC address synthesized for a discovered peer:
`f"http://{ip}:26657"`. -/
def synthUrl (ip : String) : String := "http://" ++ ip ++ ":26657"

/-- peer_network.py seed IP extraction: `rpc_url.split("//")[1].split(":")[0]`. -/
def hostOf (rpc_url : String) : String := ⟨untilColon (afterDoubleSlash rpc_url.data)⟩

/-- discover_peers.py seed IP extraction:
`seed.replace("https://", "").replace("http://", "").split(":")[0]`. -/
def seedHost (seed : String) : String :=
  ⟨untilColon (strReplace (strReplace seed "https://" "") "http://" "").data⟩

/-- Count of edge-list entries whose canonical key equals that of `(a, b)`. -/
def countPair (es : List Edge) (a b : String) : Nat :=
  es.countP (fun e => decide (sortPair e.source e.target = sortPair a b))

/-! ### peer_network.py (web-server variant) -/

namespace PN

/-- A node record as stored in `network["nodes"]` (peer_network.py
`add_node`, lines 121-146).  `discovered` models the dynamic
`"_discovered"` attribute (`pinfo.get("_discovered")` is falsy while the
key is absent, so a fresh record carries `false`). -/
structure PNode where
  id : String
  ip : String
  port : Nat
  moniker : String
  tendermint_version : String
  rpc_accessible : Bool
  dcl_version : Option String
  height : Option String
  type : String
  org : String
  rpc_url : String
  discovered : Bool
deriving DecidableEq

/-- `network["stats"]`. -/
structure Stats where
  total_nodes : Nat
  total_edges : Nat
  accessible_rpc : Nat
deriving DecidableEq

/-- The process-wide run state of peer_network.py: `network` plus the
module-level `visited_rpcs` and `edge_set`. -/
structure PNState where
  nodes : List (String × PNode)
  edges : List Edge
  edge_set : List (String × String)
  visited_rpcs : List String
  stats : Stats
  status : String
deriving DecidableEq

/-- The state right after the reset block at the top of
`start_discovery` (lines 234-241). -/
def initState : PNState :=
  { nodes := [], edges := [], edge_set := [], visited_rpcs := [],
    stats := { total_nodes := 0, total_edges := 0, accessible_rpc := 0 },
    status := "discovering" }

/-- Source translation of `add_node` (lines 121-146): insert-if-absent,
else merge-update of `rpc_accessible` / `dcl_version` / `height` under
Python truthiness. -/
def add_node (s : PNState) (peer_id ip : String) (port : Nat)
    (moniker version : String) (rpc_accessible : Bool)
    (dcl_version height : Option String) : PNState :=
  match dictGet s.nodes peer_id with
  | none =>
    let node : PNode :=
      { id := peer_id, ip := ip, port := port, moniker := moniker,
        tendermint_version := version, rpc_accessible := rpc_accessible,
        dcl_version := dcl_version, height := height,
        type := get_node_type moniker, org := get_org moniker,
        rpc_url := synthUrl ip, discovered := false }
    let nodes := s.nodes ++ [(peer_id, node)]
    { s with nodes := nodes,
             stats := { s.stats with total_nodes := nodes.length } }
  | some _ =>
    { s with nodes := dictUpdate s.nodes peer_id (fun node =>
        let node := if rpc_accessible then { node with rpc_accessible := true } else node
        let node := if isTruthy dcl_version then { node with dcl_version := dcl_version } else node
        if isTruthy height then { node with height := height } else node) }

/-- Source translation of `add_edge` (lines 149-156). -/
def add_edge (s : PNState) (source_id target_id : String) : PNState :=
  let edge_key := sortPair source_id target_id
  if edge_key ∈ s.edge_set then s
  else
    let edges := s.edges ++ [{ source := source_id, target := target_id }]
    { s with edge_set := edge_key :: s.edge_set,
             edges := edges,
             stats := { s.stats with total_edges := edges.length } }

/-- The body of the `for peer in peers` loop of `discover_from_node`
(lines 168-192): filter malformed / private entries, `add_node`, then
`add_edge` when the source id is truthy. -/
def processPeer (source_id : String) (s : PNState) (peer : PeerEntry) : PNState :=
  if !isTruthy peer.id || !isTruthy peer.remote_ip then s
  else
    let peer_id := peer.id.getD ""
    let remote_ip := peer.remote_ip.getD ""
    if is_private_ip remote_ip then s
    else
      let s := add_node s peer_id remote_ip 26656 (peer.moniker.getD "unknown")
        (peer.version.getD "unknown") false none none
      if source_id != "" then add_edge s source_id peer_id else s

/-- Source translation of `discover_from_node` (lines 159-194): the
check-then-mark of `visited_rpcs` followed by the peer loop.  (The
serialized model executes the whole call atomically; the non-atomic
interleaving of lines 161-163 is modelled separately for the visit-once
claim.) -/
def discover_from_node (rpc : Rpc) (source_id rpc_url : String) (s : PNState) : PNState :=
  if rpc_url ∈ s.visited_rpcs then s
  else
    let s := { s with visited_rpcs := rpc_url :: s.visited_rpcs }
    (rpc.net rpc_url).foldl (processPeer source_id) s

/-- `network["nodes"][peer_id]["_discovered"] = True` (lines 229, 264). -/
def setDiscovered (s : PNState) (peer_id : String) : PNState :=
  { s with nodes := dictUpdate s.nodes peer_id (fun n => { n with discovered := true }) }

/-- Source translation of `crawl_worker` (lines 197-229). -/
def crawl_worker (rpc : Rpc) (s : PNState) (peer_id : String) : PNState :=
  match dictGet s.nodes peer_id with
  | none => s
  | some peer_info =>
    let rpc_url := peer_info.rpc_url
    let s :=
      match rpc.statusOf rpc_url with
      | some st =>
        let dcl_version := rpc.abci rpc_url
        let s := add_node s peer_id peer_info.ip peer_info.port peer_info.moniker
          peer_info.tendermint_version true dcl_version st.height
        { s with stats := { s.stats with
            accessible_rpc := (s.nodes.filter (fun p => p.2.rpc_accessible)).length } }
      | none => s
    let s := discover_from_node rpc peer_id rpc_url s
    setDiscovered s peer_id

/-- The `peers_to_crawl` list of `start_discovery` (lines 270-274). -/
def pnFrontier (s : PNState) : List String :=
  (s.nodes.filter (fun p =>
    !p.2.discovered && !(decide (p.2.rpc_url ∈ s.visited_rpcs)))).map Prod.fst

/-- One iteration's worker batch, serialized in the order `pids`
(some completion order of the thread pool). -/
def runWorkers (rpc : Rpc) (s : PNState) (pids : List String) : PNState :=
  pids.foldl (crawl_worker rpc) s

/-- The `while True` crawl loop of `start_discovery` (lines 269-288),
with fuel; `σ` picks the serialization order of each iteration's worker
batch.  On an empty frontier the loop breaks and the status is set to
`"complete"`. -/
def pnLoop (rpc : Rpc) (σ : List String → List String) : Nat → PNState → PNState
  | 0, s => s
  | fuel + 1, s =>
    let f := pnFrontier s
    if f = [] then { s with status := "complete" }
    else pnLoop rpc σ fuel (runWorkers rpc s (σ f))

/-- The seed loop body of `start_discovery` (lines 246-264). -/
def seedStep (rpc : Rpc) (s : PNState) (seed : String × String) : PNState :=
  match rpc.statusOf seed.1 with
  | none => s
  | some st =>
    if isTruthy st.id then
      let seed_id := st.id.getD ""
      let dcl_version := rpc.abci seed.1
      let s := add_node s seed_id (hostOf seed.1) 26656 seed.2
        (st.version.getD "unknown") true dcl_version st.height
      let s := discover_from_node rpc seed_id seed.1 s
      setDiscovered s seed_id
    else s

/-- Source translation of `start_discovery` (lines 232-288): reset, seed
phase, crawl loop.  `seeds` stands for the configured `SEED_NODES`. -/
def start_discovery (rpc : Rpc) (σ : List String → List String) (fuel : Nat)
    (seeds : List (String × String)) : PNState :=
  pnLoop rpc σ fuel (seeds.foldl (seedStep rpc) initState)

end PN

/-! ### discover_peers.py (CLI variant) -/

namespace DP

/-- A node record as stored in the `discovered_peers` dict
(discover_peers.py lines 130-144 / 168-180). -/
structure NodeRec where
  id : String
  ip : String
  port : Nat
  moniker : String
  tendermint_version : String
  type : String
  org : String
  rpc_url : String
  rpc_accessible : Bool
  dcl_version : Option String
  height : Option String
deriving DecidableEq

/-- The module-level state of discover_peers.py: `discovered_peers`,
`edges`, `edge_set`, `visited_rpcs`. -/
structure DPState where
  discovered_peers : List (String × NodeRec)
  edges : List Edge
  edge_set : List (String × String)
  visited_rpcs : List String
deriving DecidableEq

/-- The initial module-level state (lines 22-25). -/
def initState : DPState :=
  { discovered_peers := [], edges := [], edge_set := [], visited_rpcs := [] }

/-- Source translation of `add_edge` (lines 102-107). -/
def add_edge (s : DPState) (source_id target_id : String) : DPState :=
  let edge_key := sortPair source_id target_id
  if edge_key ∈ s.edge_set then s
  else
    { s with edge_set := edge_key :: s.edge_set,
             edges := s.edges ++ [{ source := source_id, target := target_id }] }

/-- The node record built for a newly discovered peer (lines 131-144). -/
def peerNode (peer_id remote_ip moniker version : String) : NodeRec :=
  { id := peer_id, ip := remote_ip, port := 26656, moniker := moniker,
    tendermint_version := version,
    type := get_node_type moniker, org := get_org moniker,
    rpc_url := synthUrl remote_ip, rpc_accessible := false,
    dcl_version := none, height := none }

/-- The body of the `for peer in peers` loop of `discover_from_node`
(lines 119-149): skip malformed / private entries, insert-if-absent into
`discovered_peers`, then `add_edge` when the source id is truthy. -/
def processPeer (source_id : String) (s : DPState) (peer : PeerEntry) : DPState :=
  if !isTruthy peer.id || !isTruthy peer.remote_ip then s
  else
    let peer_id := peer.id.getD ""
    let remote_ip := peer.remote_ip.getD ""
    if is_private_ip remote_ip then s
    else
      let s :=
        match dictGet s.discovered_peers peer_id with
        | none =>
          { s with discovered_peers := s.discovered_peers ++
              [(peer_id, peerNode peer_id remote_ip (peer.moniker.getD "unknown")
                (peer.version.getD "unknown"))] }
        | some _ => s
      if source_id != "" then add_edge s source_id peer_id else s

/-- Source translation of `discover_from_node` (lines 110-151). -/
def discover_from_node (rpc : Rpc) (source_id rpc_url : String) (s : DPState) : DPState :=
  if rpc_url ∈ s.visited_rpcs then s
  else
    let s := { s with visited_rpcs := rpc_url :: s.visited_rpcs }
    (rpc.net rpc_url).foldl (processPeer source_id) s

/-- The node record written for a seed (lines 168-180); as in the source,
`rpc_url` is the raw seed URL and `rpc_accessible` is `True`. -/
def seedNode (rpc : Rpc) (seed seed_id moniker : String) (st : StatusRec) : NodeRec :=
  { id := seed_id, ip := seedHost seed, port := 26656, moniker := moniker,
    tendermint_version := st.version.getD "unknown",
    type := get_node_type moniker, org := get_org moniker,
    rpc_url := seed, rpc_accessible := true,
    dcl_version := rpc.abci seed, height := st.height }

/-- The seed loop body of `crawl_network` (lines 159-181).  Note the
plain dict assignment `discovered_peers[seed_id] = {...}` — it replaces
an existing record wholesale. -/
def seedStep (rpc : Rpc) (s : DPState) (seed : String) : DPState :=
  match rpc.statusOf seed with
  | none => s
  | some st =>
    if isTruthy st.id then
      let seed_id := st.id.getD ""
      let moniker := st.moniker.getD "unknown"
      let nodes := dictSet s.discovered_peers seed_id (seedNode rpc seed seed_id moniker st)
      let s := { s with discovered_peers := nodes }
      discover_from_node rpc seed_id seed s
    else s

/-- The seed phase of `crawl_network` (the `for seed in SEED_NODES` loop). -/
def seedPhase (rpc : Rpc) (seeds : List String) (s : DPState) : DPState :=
  seeds.foldl (seedStep rpc) s

/-- The `peers_to_query` list of `crawl_network` (lines 188-191). -/
def dpFrontier (s : DPState) : List (String × String) :=
  (s.discovered_peers.filter (fun p =>
    !(decide (p.2.rpc_url ∈ s.visited_rpcs)))).map (fun p => (p.1, p.2.rpc_url))

/-- One iteration's batch of `discover_from_node` tasks, serialized in
the order `tasks`. -/
def runTasks (rpc : Rpc) (tasks : List (String × String)) (s : DPState) : DPState :=
  tasks.foldl (fun s t => discover_from_node rpc t.1 t.2 s) s

/-- The `while True` loop of `crawl_network` (lines 187-208), with fuel;
`σ` picks the serialization order of each iteration's task batch. -/
def dpLoop (rpc : Rpc) (σ : List (String × String) → List (String × String)) :
    Nat → DPState → DPState
  | 0, s => s
  | fuel + 1, s =>
    let f := dpFrontier s
    if f = [] then s
    else dpLoop rpc σ fuel (runTasks rpc (σ f) s)

/-- Source translation of `crawl_network` (lines 154-210): seed phase
then the crawl loop.  `seeds` stands for the configured `SEED_NODES`. -/
def crawl_network (rpc : Rpc) (seeds : List String)
    (σ : List (String × String) → List (String × String)) (fuel : Nat) : DPState :=
  dpLoop rpc σ fuel (seedPhase rpc seeds initState)

/-- Source translation of the inner `check_peer` of
`check_rpc_accessibility` (lines 219-229), acting on one node record.
On a successful status query it assigns `rpc_accessible`, `dcl_version`
and `height` unconditionally. -/
def check_peer (rpc : Rpc) (peer_info : NodeRec) : NodeRec :=
  if peer_info.rpc_accessible then peer_info
  else
    match rpc.statusOf peer_info.rpc_url with
    | some st =>
      { peer_info with rpc_accessible := true,
                       dcl_version := rpc.abci peer_info.rpc_url,
                       height := st.height }
    | none => peer_info

end DP

/-! ### Fine-grained model of the visited-set check (visit-once claim)

`discover_from_node` begins with (discover_peers.py lines 112-114,
peer_network.py lines 161-163, identical, and in neither file guarded by
the lock):

    if rpc_url in visited_rpcs:
        return []
    visited_rpcs.add(rpc_url)
    peers = query_net_info(rpc_url)

Each concurrently dispatched task is modelled as a little program over a
program counter: membership check, mark, query.  `stepTask` executes one
atomic step of one task; a schedule is a sequence of task indices.  The
remainder of the task body does not touch `visited_rpcs` or issue the
peer-list query again, so it is irrelevant to how often an address is
queried and is not part of this model. -/

namespace VO

/-- Program counter of one crawl task's prologue. -/
inductive TPC where
  | checkS
  | markS
  | queryS
  | doneS
deriving DecidableEq

/-- Shared state plus per-task control state: `visited` is the shared
`visited_rpcs`, `queries` logs every executed peer-list query (by URL),
`url i` is task `i`'s `rpc_url` argument and `pc i` its program counter. -/
structure Sys where
  visited : List String
  queries : List String
  url : Nat → String
  pc : Nat → TPC

/-- Execute one atomic step of task `i`. -/
def stepTask (sys : Sys) (i : Nat) : Sys :=
  match sys.pc i with
  | .checkS =>
    if sys.url i ∈ sys.visited then
      { sys with pc := fun j => if j = i then .doneS else sys.pc j }
    else
      { sys with pc := fun j => if j = i then .markS else sys.pc j }
  | .markS =>
    { sys with visited := sys.url i :: sys.visited,
               pc := fun j => if j = i then .queryS else sys.pc j }
  | .queryS =>
    { sys with queries := sys.queries ++ [sys.url i],
               pc := fun j => if j = i then .doneS else sys.pc j }
  | .doneS => sys

/-- Run a schedule (a sequence of task indices, one atomic step each). -/
def run (sys : Sys) (sched : List Nat) : Sys := sched.foldl stepTask sys

/-- A serialized schedule: the tasks listed in `ord` run one after the
other, each to completion (three steps). -/
def serialSched (ord : List Nat) : List Nat := ord.flatMap (fun i => [i, i, i])

/-- Two concurrent tasks, both holding the same RPC address `"u"`
(two distinct node identities sharing one address), both at the check. -/
def twoTasksSameUrl : Sys :=
  { visited := [], queries := [], url := fun _ => "u", pc := fun _ => .checkS }

end VO

/-! ### Concrete scenario oracles -/

/-- The peer-list entry for node C as returned by seeds A and B in the
end-to-end scenario: public address `9.9.9.9`. -/
def peerC : PeerEntry :=
  { id := some "idC", moniker := some "C-node", version := some "v1",
    remote_ip := some "9.9.9.9" }

/-- Oracle for the end-to-end scenario: seeds A and B answer status, each
reports only peer C, and C's own peer list is empty. -/
def rpcC8 : Rpc :=
  { net := fun url =>
      if url = "http://a:26657" then [peerC]
      else if url = "http://b:26657" then [peerC]
      else [],
    statusOf := fun url =>
      if url = "http://a:26657" then
        some { id := some "idA", moniker := some "A-node", version := some "v1",
               height := some "100" }
      else if url = "http://b:26657" then
        some { id := some "idB", moniker := some "B-node", version := some "v1",
               height := some "101" }
      else none,
    abci := fun _ => none }

/-- The two seed URLs of the end-to-end scenario. -/
def seedsC8 : List String := ["http://a:26657", "http://b:26657"]

/-- Oracle for the seed-overwrite scenario: seed A's peer list references
the node `idB` (as a peer with address `8.8.8.8`), and seed B then answers
a status query with that same identity `idB`. -/
def rpcC5 : Rpc :=
  { net := fun url =>
      if url = "http://a:26657" then
        [{ id := some "idB", moniker := some "B-peer", version := some "v0",
           remote_ip := some "8.8.8.8" }]
      else [],
    statusOf := fun url =>
      if url = "http://a:26657" then
        some { id := some "idA", moniker := some "A-seed", version := some "v1",
               height := none }
      else if url = "http://b:26657" then
        some { id := some "idB", moniker := some "B-seed", version := some "v1",
               height := none }
      else none,
    abci := fun _ => none }

/-- An oracle on which every query fails (used for witnesses). -/
def rpcNone : Rpc :=
  { net := fun _ => [], statusOf := fun _ => none, abci := fun _ => none }

/-! ### Helper lemmas: string order and the canonical edge key -/

lemma strLtL_asymm : ∀ a b : List Char, strLtL a b = true → strLtL b a = false := by
  intro a
  induction a with
  | nil =>
    intro b h
    cases b with
    | nil => simp [strLtL] at h
    | cons d ds => simp [strLtL]
  | cons c cs ih =>
    intro b h
    cases b with
    | nil => simp [strLtL] at h
    | cons d ds =>
      simp only [strLtL, Bool.or_eq_true, Bool.and_eq_true, decide_eq_true_eq,
        beq_iff_eq] at h
      simp only [strLtL, Bool.or_eq_false_iff, Bool.and_eq_false_iff,
        decide_eq_false_iff_not, beq_eq_false_iff_ne, ne_eq]
      rcases h with h | ⟨rfl, h2⟩
      · exact ⟨lt_asymm h, Or.inl (fun e => absurd h (e ▸ lt_irrefl d))⟩
      · exact ⟨lt_irrefl c, Or.inr (ih ds h2)⟩

lemma strLtL_eq_of_both_false :
    ∀ a b : List Char, strLtL a b = false → strLtL b a = false → a = b := by
  intro a
  induction a with
  | nil =>
    intro b h1 _
    cases b with
    | nil => rfl
    | cons d ds => simp [strLtL] at h1
  | cons c cs ih =>
    intro b h1 h2
    cases b with
    | nil => simp [strLtL] at h2
    | cons d ds =>
      simp only [strLtL, Bool.or_eq_false_iff, Bool.and_eq_false_iff,
        decide_eq_false_iff_not, beq_eq_false_iff_ne, ne_eq] at h1 h2
      rcases lt_trichotomy c d with hcd | hcd | hcd
      · exact absurd hcd h1.1
      · subst hcd
        rcases h1.2 with h | h
        · exact absurd rfl h
        · rcases h2.2 with g | g
          · exact absurd rfl g
          · rw [ih ds h g]
      · exact absurd hcd h2.1

/-- The canonical key is symmetric: `sorted([a,b]) = sorted([b,a])`. -/
lemma sortPair_comm (a b : String) : sortPair a b = sortPair b a := by
  unfold sortPair
  by_cases h1 : strLt b a = true
  · have h2 : strLt a b = false := strLtL_asymm _ _ h1
    simp [h1, h2]
  · have h1f : strLt b a = false := by simpa using h1
    by_cases h2 : strLt a b = true
    · simp [h1f, h2]
    · have h2f : strLt a b = false := by simpa using h2
      have hd : b.data = a.data := strLtL_eq_of_both_false _ _ h1f h2f
      have hba : b = a := by
        cases a
        cases b
        exact congrArg String.mk hd
      simp [h1f, h2f, hba]

/-- Appending an edge for the pair `(a, b)` bumps its count by one. -/
lemma countPair_append_self (es : List Edge) (a b x y : String)
    (h : sortPair x y = sortPair a b) :
    countPair (es ++ [{ source := x, target := y }]) a b = countPair es a b + 1 := by
  unfold countPair
  rw [List.countP_append]
  simp [h]

/-! ### Helper lemmas: association lists -/

lemma dictGet_cons {α : Type} (k1 : String) (v1 : α) (rest : List (String × α))
    (key : String) :
    dictGet ((k1, v1) :: rest) key = if k1 = key then some v1 else dictGet rest key := rfl

lemma dictUpdate_cons {α : Type} (k1 : String) (v1 : α) (rest : List (String × α))
    (key : String) (f : α → α) :
    dictUpdate ((k1, v1) :: rest) key f =
      (if k1 = key then (k1, f v1) else (k1, v1)) :: dictUpdate rest key f := by
  by_cases h : k1 = key <;> simp [dictUpdate, h]

lemma dictGet_eq_none_iff {α : Type} (l : List (String × α)) (k : String) :
    dictGet l k = none ↔ k ∉ dictKeys l := by
  induction l with
  | nil => simp [dictGet, dictKeys]
  | cons kv rest ih =>
    obtain ⟨k1, v1⟩ := kv
    by_cases h : k1 = k
    · subst h
      simp [dictGet_cons, dictKeys]
    · have h2 : ¬k = k1 := fun e => h e.symm
      simp [dictGet_cons, dictKeys, h, h2, ih]

lemma mem_dictKeys_of_dictGet {α : Type} {l : List (String × α)} {k : String} {v : α}
    (h : dictGet l k = some v) : k ∈ dictKeys l := by
  by_contra hk
  rw [← dictGet_eq_none_iff] at hk
  rw [h] at hk
  exact Option.noConfusion hk

lemma dictKeys_dictUpdate {α : Type} (l : List (String × α)) (k : String) (f : α → α) :
    dictKeys (dictUpdate l k f) = dictKeys l := by
  induction l with
  | nil => rfl
  | cons kv rest ih =>
    obtain ⟨k1, v1⟩ := kv
    rw [dictUpdate_cons]
    by_cases h : k1 = k <;> simp [dictKeys, h] <;> simpa [dictKeys] using ih

lemma dictGet_dictUpdate_self {α : Type} (l : List (String × α)) (k : String) (f : α → α) :
    dictGet (dictUpdate l k f) k = (dictGet l k).map f := by
  induction l with
  | nil => rfl
  | cons kv rest ih =>
    obtain ⟨k1, v1⟩ := kv
    rw [dictUpdate_cons]
    by_cases h : k1 = k
    · subst h
      simp [dictGet_cons]
    · simp [dictGet_cons, h, ih]

lemma dictGet_dictUpdate_ne {α : Type} (l : List (String × α)) (k k2 : String) (f : α → α)
    (h : k2 ≠ k) : dictGet (dictUpdate l k f) k2 = dictGet l k2 := by
  induction l with
  | nil => rfl
  | cons kv rest ih =>
    obtain ⟨k1, v1⟩ := kv
    rw [dictUpdate_cons]
    by_cases h1 : k1 = k
    · subst h1
      have h2 : ¬k1 = k2 := fun e => h (e ▸ rfl)
      simp [dictGet_cons, h2, ih]
    · by_cases h2 : k1 = k2 <;> simp [dictGet_cons, h1, h2, ih, h]

lemma dictGet_append_some {α : Type} {l : List (String × α)} {k : String} {v : α}
    (m : List (String × α)) (h : dictGet l k = some v) : dictGet (l ++ m) k = some v := by
  induction l with
  | nil => simp [dictGet] at h
  | cons kv rest ih =>
    obtain ⟨k1, v1⟩ := kv
    rw [dictGet_cons] at h
    rw [List.cons_append, dictGet_cons]
    by_cases h1 : k1 = k
    · simpa [h1] using h
    · simp only [h1, if_false] at h ⊢
      exact ih h

lemma dictGet_append_none {α : Type} {l : List (String × α)} {k : String}
    (m : List (String × α)) (h : dictGet l k = none) :
    dictGet (l ++ m) k = dictGet m k := by
  induction l with
  | nil => simp
  | cons kv rest ih =>
    obtain ⟨k1, v1⟩ := kv
    rw [dictGet_cons] at h
    rw [List.cons_append, dictGet_cons]
    by_cases h1 : k1 = k
    · simp [h1] at h
    · simp only [h1, if_false] at h ⊢
      exact ih h

lemma dictKeys_append {α : Type} (l m : List (String × α)) :
    dictKeys (l ++ m) = dictKeys l ++ dictKeys m := by
  simp [dictKeys]

lemma mem_of_dictGet {α : Type} {l : List (String × α)} {k : String} {v : α}
    (h : dictGet l k = some v) : (k, v) ∈ l := by
  induction l with
  | nil => simp [dictGet] at h
  | cons kv rest ih =>
    obtain ⟨k1, v1⟩ := kv
    rw [dictGet_cons] at h
    by_cases h1 : k1 = k
    · subst h1
      rw [if_pos rfl] at h
      cases h
      exact List.mem_cons_self _ _
    · simp only [h1, if_false] at h
      exact List.mem_cons_of_mem _ (ih h)

lemma dictGet_of_mem_nodup {α : Type} {l : List (String × α)} {k : String} {v : α}
    (hn : (dictKeys l).Nodup) (h : (k, v) ∈ l) : dictGet l k = some v := by
  induction l with
  | nil => simp at h
  | cons kv rest ih =>
    obtain ⟨k1, v1⟩ := kv
    simp only [dictKeys, List.map_cons, List.nodup_cons] at hn
    rcases List.mem_cons.mp h with h | h
    · cases h
      rw [dictGet_cons, if_pos rfl]
    · have hk : k1 ≠ k := by
        intro e
        subst e
        exact hn.1 (List.mem_map_of_mem Prod.fst h)
      rw [dictGet_cons, if_neg hk]
      exact ih hn.2 h

/-! ### Behaviour of `add_edge` (both variants) -/

lemma PN_add_edge_mem (s : PN.PNState) (a b : String)
    (h : sortPair a b ∈ s.edge_set) : PN.add_edge s a b = s := by
  simp [PN.add_edge, h]

lemma PN_add_edge_not_mem (s : PN.PNState) (a b : String)
    (h : sortPair a b ∉ s.edge_set) :
    (PN.add_edge s a b).edges = s.edges ++ [{ source := a, target := b }] ∧
    (PN.add_edge s a b).edge_set = sortPair a b :: s.edge_set ∧
    (PN.add_edge s a b).nodes = s.nodes ∧
    (PN.add_edge s a b).visited_rpcs = s.visited_rpcs := by
  simp [PN.add_edge, h]

lemma DP_add_edge_mem (s : DP.DPState) (a b : String)
    (h : sortPair a b ∈ s.edge_set) : DP.add_edge s a b = s := by
  simp [DP.add_edge, h]

lemma DP_add_edge_not_mem (s : DP.DPState) (a b : String)
    (h : sortPair a b ∉ s.edge_set) :
    (DP.add_edge s a b).edges = s.edges ++ [{ source := a, target := b }] ∧
    (DP.add_edge s a b).edge_set = sortPair a b :: s.edge_set ∧
    (DP.add_edge s a b).discovered_peers = s.discovered_peers ∧
    (DP.add_edge s a b).visited_rpcs = s.visited_rpcs := by
  simp [DP.add_edge, h]

/-- C3 counterexample: on the fresh state, `add_edge("x", "x")` is *not* a
no-op — the code has no self-loop check, so it appends the self-loop edge
(and likewise appends an edge with an empty endpoint). -/
theorem c3_add_edge_self_loop_counterexample :
    (PN.add_edge PN.initState "x" "x").edges = [{ source := "x", target := "x" }] ∧
    PN.initState.edges = [] ∧
    (DP.add_edge DP.initState "" "y").edges = [{ source := "", target := "y" }] := by
  decide

/-- C3 amended: in both variants `add_edge(A, B)` is a no-op exactly when
the canonical sorted pair is already recorded; otherwise it appends
exactly one new Edge and records the canonical key — including when A = B
or when an identity is empty (the function itself rejects neither; the
callers filter empty identities before calling). -/
theorem c3_add_edge_amended :
    (∀ (s : PN.PNState) (a b : String),
      (sortPair a b ∈ s.edge_set → PN.add_edge s a b = s) ∧
      (sortPair a b ∉ s.edge_set →
        (PN.add_edge s a b).edges = s.edges ++ [{ source := a, target := b }] ∧
        (PN.add_edge s a b).edge_set = sortPair a b :: s.edge_set)) ∧
    (∀ (s : DP.DPState) (a b : String),
      (sortPair a b ∈ s.edge_set → DP.add_edge s a b = s) ∧
      (sortPair a b ∉ s.edge_set →
        (DP.add_edge s a b).edges = s.edges ++ [{ source := a, target := b }] ∧
        (DP.add_edge s a b).edge_set = sortPair a b :: s.edge_set)) := by
  constructor
  · intro s a b
    exact ⟨PN_add_edge_mem s a b,
           fun h => ⟨(PN_add_edge_not_mem s a b h).1, (PN_add_edge_not_mem s a b h).2.1⟩⟩
  · intro s a b
    exact ⟨DP_add_edge_mem s a b,
           fun h => ⟨(DP_add_edge_not_mem s a b h).1, (DP_add_edge_not_mem s a b h).2.1⟩⟩

/-- Witness for the amended C3 theorem at concrete inputs. -/
theorem c3_add_edge_amended_witness :
    PN.add_edge (PN.add_edge PN.initState "a" "b") "a" "b" =
      PN.add_edge PN.initState "a" "b" ∧
    (DP.add_edge DP.initState "a" "b").edges = [] ++ [{ source := "a", target := "b" }] := by
  constructor
  · exact (c3_add_edge_amended.1 (PN.add_edge PN.initState "a" "b") "a" "b").1 (by decide)
  · exact ((c3_add_edge_amended.2 DP.initState "a" "b").2 (by decide)).1

/-- C7: for distinct identities whose pair is not yet recorded, calling
`add_edge` a second time — in the same order or with the arguments
swapped — is the identity, and the edge list holds exactly one entry for
that pair. -/
theorem c7_add_edge_idempotent_symmetric (s : PN.PNState) (a b : String)
    (hab : a ≠ b) (hkey : sortPair a b ∉ s.edge_set)
    (hcount : countPair s.edges a b = 0) :
    PN.add_edge (PN.add_edge s a b) a b = PN.add_edge s a b ∧
    PN.add_edge (PN.add_edge s a b) b a = PN.add_edge s a b ∧
    countPair (PN.add_edge (PN.add_edge s a b) a b).edges a b = 1 ∧
    countPair (PN.add_edge (PN.add_edge s a b) b a).edges a b = 1 := by
  obtain ⟨he, hk, -, -⟩ := PN_add_edge_not_mem s a b hkey
  have hmem1 : sortPair a b ∈ (PN.add_edge s a b).edge_set := by
    rw [hk]
    exact List.mem_cons_self _ _
  have hmem2 : sortPair b a ∈ (PN.add_edge s a b).edge_set := by
    rw [sortPair_comm b a, hk]
    exact List.mem_cons_self _ _
  have h1 : PN.add_edge (PN.add_edge s a b) a b = PN.add_edge s a b :=
    PN_add_edge_mem _ a b hmem1
  have h2 : PN.add_edge (PN.add_edge s a b) b a = PN.add_edge s a b :=
    PN_add_edge_mem _ b a hmem2
  have hc : countPair (PN.add_edge s a b).edges a b = 1 := by
    rw [he, countPair_append_self s.edges a b a b rfl, hcount]
  exact ⟨h1, h2, by rw [h1, hc], by rw [h2, hc]⟩

/-- Witness for C7 at concrete inputs. -/
theorem c7_add_edge_idempotent_symmetric_witness :
    PN.add_edge (PN.add_edge PN.initState "a" "b") "b" "a" =
      PN.add_edge PN.initState "a" "b" ∧
    countPair (PN.add_edge (PN.add_edge PN.initState "a" "b") "b" "a").edges "a" "b" = 1 := by
  have h := c7_add_edge_idempotent_symmetric PN.initState "a" "b"
    (by decide) (by decide) (by decide)
  exact ⟨h.2.1, h.2.2.2⟩

/-! ### Stats consistency (web-server variant) -/

/-- The published statistics agree with the stores: `stats.total_nodes`
is the number of registry entries and `stats.total_edges` the length of
the edge list. -/
def pnStatsConsistent (s : PN.PNState) : Prop :=
  s.stats.total_nodes = s.nodes.length ∧ s.stats.total_edges = s.edges.length

/-- C9: the reset state is consistent, and every completed `add_node` and
`add_edge` operation preserves consistency of `total_nodes` and
`total_edges` with the actual stores, so the counters never drift. -/
theorem c9_stats_consistent :
    pnStatsConsistent PN.initState ∧
    (∀ (s : PN.PNState) (peer_id ip : String) (port : Nat) (moniker version : String)
      (ra : Bool) (dv h : Option String), pnStatsConsistent s →
        pnStatsConsistent (PN.add_node s peer_id ip port moniker version ra dv h)) ∧
    (∀ (s : PN.PNState) (a b : String), pnStatsConsistent s →
        pnStatsConsistent (PN.add_edge s a b)) := by
  refine ⟨⟨rfl, rfl⟩, ?_, ?_⟩
  · intro s peer_id ip port moniker version ra dv h hc
    unfold PN.add_node
    cases hg : dictGet s.nodes peer_id with
    | none =>
      exact ⟨rfl, hc.2⟩
    | some n =>
      refine ⟨?_, hc.2⟩
      simpa [dictUpdate] using hc.1
  · intro s a b hc
    unfold PN.add_edge
    by_cases h : sortPair a b ∈ s.edge_set
    · simpa [h] using hc
    · refine ⟨?_, ?_⟩ <;> simp [h, pnStatsConsistent, hc.1]

/-- Witness for C9 at concrete inputs. -/
theorem c9_stats_consistent_witness :
    pnStatsConsistent
      (PN.add_edge (PN.add_node PN.initState "x" "1.2.3.4" 26656 "m" "v" false none none)
        "x" "y") := by
  exact c9_stats_consistent.2.2 _ "x" "y"
    (c9_stats_consistent.2.1 PN.initState "x" "1.2.3.4" 26656 "m" "v" false none none
      c9_stats_consistent.1)

/-! ### Visit-once under concurrency -/

/-- Invariant for the task-prologue system: every task is either before
its check or done, and every URL has been queried at most once — and if
queried, it is already in the visited set. -/
def voInv (sys : VO.Sys) : Prop :=
  (∀ i, sys.pc i = VO.TPC.checkS ∨ sys.pc i = VO.TPC.doneS) ∧
  (∀ u, sys.queries.count u ≤ 1 ∧ (sys.queries.count u = 1 → u ∈ sys.visited))

lemma vo_step_done (t : VO.Sys) (i : Nat) (ht : t.pc i = VO.TPC.doneS) :
    VO.stepTask t i = t := by
  simp [VO.stepTask, ht]

lemma vo_run_append (sys : VO.Sys) (a b : List Nat) :
    VO.run sys (a ++ b) = VO.run (VO.run sys a) b := by
  simp [VO.run, List.foldl_append]

lemma voInv_block (sys : VO.Sys) (i : Nat) (h : voInv sys) :
    voInv (VO.run sys [i, i, i]) := by
  rcases h.1 i with hpc | hpc
  · by_cases hv : sys.url i ∈ sys.visited
    · have e1 : VO.stepTask sys i =
          { sys with pc := fun j => if j = i then VO.TPC.doneS else sys.pc j } := by
        simp [VO.stepTask, hpc, hv]
      have e2 : VO.run sys [i, i, i] =
          { sys with pc := fun j => if j = i then VO.TPC.doneS else sys.pc j } := by
        show VO.stepTask (VO.stepTask (VO.stepTask sys i) i) i = _
        have d1 : VO.stepTask
            { sys with pc := fun j => if j = i then VO.TPC.doneS else sys.pc j } i =
            { sys with pc := fun j => if j = i then VO.TPC.doneS else sys.pc j } :=
          vo_step_done _ i (by simp)
        rw [e1, d1, d1]
      rw [e2]
      refine ⟨fun j => ?_, h.2⟩
      by_cases hj : j = i
      · simp [hj]
      · simp only [hj, if_false]
        exact h.1 j
    · have e1 : VO.stepTask sys i =
          { sys with pc := fun j => if j = i then VO.TPC.markS else sys.pc j } := by
        simp [VO.stepTask, hpc, hv]
      have e2 : VO.stepTask (VO.stepTask sys i) i =
          { sys with visited := sys.url i :: sys.visited,
                     pc := fun j => if j = i then VO.TPC.queryS
                                    else if j = i then VO.TPC.markS else sys.pc j } := by
        rw [e1]
        simp [VO.stepTask]
      have e3 : VO.run sys [i, i, i] =
          { sys with visited := sys.url i :: sys.visited,
                     queries := sys.queries ++ [sys.url i],
                     pc := fun j => if j = i then VO.TPC.doneS
                                    else if j = i then VO.TPC.queryS
                                    else if j = i then VO.TPC.markS else sys.pc j } := by
        show VO.stepTask (VO.stepTask (VO.stepTask sys i) i) i = _
        rw [e2]
        simp [VO.stepTask]
      rw [e3]
      refine ⟨fun j => ?_, fun u => ?_⟩
      · by_cases hj : j = i
        · simp [hj]
        · simp only [hj, if_false]
          exact h.1 j
      · have hcq : sys.queries.count (sys.url i) = 0 := by
          rcases Nat.lt_or_ge (sys.queries.count (sys.url i)) 1 with hlt | hge
          · omega
          · have h1 : sys.queries.count (sys.url i) = 1 :=
              le_antisymm (h.2 (sys.url i)).1 hge
            exact absurd ((h.2 (sys.url i)).2 h1) hv
        by_cases hu : u = sys.url i
        · subst hu
          refine ⟨?_, fun _ => List.mem_cons_self _ _⟩
          simp [List.count_append, hcq]
        · have hq : (sys.queries ++ [sys.url i]).count u = sys.queries.count u := by
            simp [List.count_append, List.count_singleton, hu]
          refine ⟨?_, fun h1 => ?_⟩
          · rw [hq]
            exact (h.2 u).1
          · rw [hq] at h1
            exact List.mem_cons_of_mem _ ((h.2 u).2 h1)
  · have e : VO.run sys [i, i, i] = sys := by
      show VO.stepTask (VO.stepTask (VO.stepTask sys i) i) i = _
      rw [vo_step_done _ i hpc, vo_step_done _ i hpc, vo_step_done _ i hpc]
    rw [e]
    exact h

lemma voInv_serial (ord : List Nat) :
    ∀ sys : VO.Sys, voInv sys → voInv (VO.run sys (VO.serialSched ord)) := by
  induction ord with
  | nil => intro sys h; simpa [VO.run, VO.serialSched] using h
  | cons i rest ih =>
    intro sys h
    have e : VO.serialSched (i :: rest) = [i, i, i] ++ VO.serialSched rest := by
      simp [VO.serialSched]
    rw [e, vo_run_append]
    exact ih _ (voInv_block sys i h)

/-- C2 counterexample: two concurrent crawl tasks for two node identities
sharing the RPC address `"u"`, interleaved check-check-mark-mark-query-
query (a schedule the unsynchronized two-statement prologue permits),
execute the peer-list query for `"u"` twice in one run. -/
theorem c2_visit_once_counterexample :
    (VO.run VO.twoTasksSameUrl [0, 1, 0, 1, 0, 1]).queries = ["u", "u"] ∧
    (VO.run VO.twoTasksSameUrl [0, 1, 0, 1, 0, 1]).queries.count "u" = 2 := by
  decide

/-- C2 amended: the check and the insertion are two separate steps, not
an atomic check-and-set; when the dispatched tasks' prologues do not
interleave (each task runs its three steps consecutively, in any task
order, from any initial visited set), every RPC address is queried at
most once per run. -/
theorem c2_visit_once_amended (ord : List Nat) (v : List String)
    (url : Nat → String) (u : String) :
    ((VO.run { visited := v, queries := [], url := url, pc := fun _ => VO.TPC.checkS }
      (VO.serialSched ord)).queries.count u) ≤ 1 :=
  ((voInv_serial ord _ ⟨fun _ => Or.inl rfl, fun _ => ⟨by simp, by simp⟩⟩).2 u).1

/-! ### Helper lemmas: discover_peers.py state -/

lemma foldl_preserves {σ β : Type} (P : σ → Prop) (f : σ → β → σ)
    (hf : ∀ s b, P s → P (f s b)) : ∀ (l : List β) (s : σ), P s → P (l.foldl f s) := by
  intro l
  induction l with
  | nil => intro s h; exact h
  | cons b rest ih => intro s h; exact ih (f s b) (hf s b h)

lemma mem_dictSet {α : Type} {k : String} {v : α} :
    ∀ {l : List (String × α)} {p : String × α}, p ∈ dictSet l k v → p ∈ l ∨ p = (k, v) := by
  intro l
  induction l with
  | nil =>
    intro p h
    simp [dictSet] at h
    exact Or.inr h
  | cons kv rest ih =>
    intro p h
    obtain ⟨k1, v1⟩ := kv
    by_cases h1 : k1 = k
    · subst h1
      simp only [dictSet, if_pos rfl] at h
      rcases List.mem_cons.mp h with h | h
      · exact Or.inr (by simpa using h)
      · exact Or.inl (List.mem_cons_of_mem _ h)
    · simp only [dictSet, if_neg h1] at h
      rcases List.mem_cons.mp h with h | h
      · exact Or.inl (h ▸ List.mem_cons_self _ _)
      · rcases ih h with h | h
        · exact Or.inl (List.mem_cons_of_mem _ h)
        · exact Or.inr h

lemma DP_add_edge_nodes (s : DP.DPState) (a b : String) :
    (DP.add_edge s a b).discovered_peers = s.discovered_peers := by
  unfold DP.add_edge
  by_cases h : sortPair a b ∈ s.edge_set <;> simp [h]

/-- The peer loop body either leaves the registry unchanged or appends
exactly one freshly built peer record. -/
lemma DP_processPeer_nodes (src : String) (s : DP.DPState) (peer : PeerEntry) :
    (DP.processPeer src s peer).discovered_peers = s.discovered_peers ∨
    ∃ pid ip mk v, dictGet s.discovered_peers pid = none ∧
      (DP.processPeer src s peer).discovered_peers =
        s.discovered_peers ++ [(pid, DP.peerNode pid ip mk v)] := by
  unfold DP.processPeer
  by_cases h1 : (!isTruthy peer.id || !isTruthy peer.remote_ip) = true
  · rw [if_pos h1]
    exact Or.inl rfl
  · rw [if_neg h1]
    by_cases h2 : is_private_ip (peer.remote_ip.getD "") = true
    · rw [if_pos h2]
      exact Or.inl rfl
    · rw [if_neg h2]
      cases hg : dictGet s.discovered_peers (peer.id.getD "") with
      | none =>
        by_cases h3 : (src != "") = true
        · rw [if_pos h3, DP_add_edge_nodes]
          exact Or.inr ⟨_, _, _, _, hg, rfl⟩
        · rw [if_neg h3]
          exact Or.inr ⟨_, _, _, _, hg, rfl⟩
      | some n =>
        by_cases h3 : (src != "") = true
        · rw [if_pos h3, DP_add_edge_nodes]
          exact Or.inl rfl
        · rw [if_neg h3]
          exact Or.inl rfl

/-! ### Insert-if-absent semantics (claim about double insertion) -/

/-- C5 counterexample: in discover_peers.py, after seed A's peer list has
registered identity `idB` (moniker `B-peer`, address `8.8.8.8`), the
seed-phase insertion for seed B — a plain dict assignment — replaces the
stored record's attributes (moniker becomes `B-seed`, address becomes
`b`), although only one record exists throughout. -/
theorem c5_seed_insert_counterexample :
    (dictGet (DP.seedPhase rpcC5 ["http://a:26657"] DP.initState).discovered_peers
      "idB").map DP.NodeRec.moniker = some "B-peer" ∧
    (dictGet (DP.seedPhase rpcC5 ["http://a:26657"] DP.initState).discovered_peers
      "idB").map DP.NodeRec.ip = some "8.8.8.8" ∧
    (dictGet (DP.seedPhase rpcC5 ["http://a:26657", "http://b:26657"]
      DP.initState).discovered_peers "idB").map DP.NodeRec.moniker = some "B-seed" ∧
    (dictGet (DP.seedPhase rpcC5 ["http://a:26657", "http://b:26657"]
      DP.initState).discovered_peers "idB").map DP.NodeRec.ip = some "b" ∧
    dictKeys (DP.seedPhase rpcC5 ["http://a:26657", "http://b:26657"]
      DP.initState).discovered_peers = ["idA", "idB"] := by
  decide

/-- C5 amended: inserting an identity twice never creates a second
record.  For `add_node` (web-server variant) the second insertion leaves
every non-merge attribute (name, address, port, role, organization, RPC
address, version) of the stored record unchanged; the guarded peer-path
insertion of discover_peers.py leaves the whole registry unchanged; the
discover_peers.py seed-phase insertion keeps the key set unchanged (one
record) but replaces the stored record. -/
theorem c5_insert_if_absent_amended :
    (∀ (s : PN.PNState) (pid ip : String) (port : Nat) (moniker version : String)
      (ra : Bool) (dv hh : Option String),
      (dictGet s.nodes pid).isSome = true →
        dictKeys (PN.add_node s pid ip port moniker version ra dv hh).nodes =
          dictKeys s.nodes ∧
        ∃ n m, dictGet s.nodes pid = some n ∧
          dictGet (PN.add_node s pid ip port moniker version ra dv hh).nodes pid = some m ∧
          m.moniker = n.moniker ∧ m.ip = n.ip ∧ m.port = n.port ∧
          m.type = n.type ∧ m.org = n.org ∧ m.rpc_url = n.rpc_url ∧
          m.tendermint_version = n.tendermint_version) ∧
    (∀ (src : String) (s : DP.DPState) (peer : PeerEntry),
      (dictGet s.discovered_peers (peer.id.getD "")).isSome = true →
        (DP.processPeer src s peer).discovered_peers = s.discovered_peers) ∧
    (∀ {α : Type} (l : List (String × α)) (k : String) (v : α),
      k ∈ dictKeys l → dictKeys (dictSet l k v) = dictKeys l) := by
  refine ⟨?_, ?_, ?_⟩
  · intro s pid ip port moniker version ra dv hh hs
    rw [Option.isSome_iff_exists] at hs
    obtain ⟨n, hg⟩ := hs
    constructor
    · simp only [PN.add_node, hg]
      exact dictKeys_dictUpdate _ _ _
    · have hm : dictGet (PN.add_node s pid ip port moniker version ra dv hh).nodes pid =
          some (let node := if ra then { n with rpc_accessible := true } else n
                let node := if isTruthy dv then { node with dcl_version := dv } else node
                if isTruthy hh then { node with height := hh } else node) := by
        simp only [PN.add_node, hg]
        rw [dictGet_dictUpdate_self, hg]
        rfl
      refine ⟨n, _, hg, hm, ?_⟩
      cases ra <;> cases hdv : isTruthy dv <;> cases hhh : isTruthy hh <;>
        simp [hdv, hhh]
  · intro src s peer hs
    rw [Option.isSome_iff_exists] at hs
    obtain ⟨n, hg⟩ := hs
    unfold DP.processPeer
    by_cases h1 : (!isTruthy peer.id || !isTruthy peer.remote_ip) = true
    · rw [if_pos h1]
    · rw [if_neg h1]
      by_cases h2 : is_private_ip (peer.remote_ip.getD "") = true
      · rw [if_pos h2]
      · rw [if_neg h2]
        rw [hg]
        by_cases h3 : (src != "") = true
        · rw [if_pos h3, DP_add_edge_nodes]
        · rw [if_neg h3]
  · intro α l k v h
    induction l with
    | nil => simp [dictKeys] at h
    | cons kv rest ih =>
      obtain ⟨k1, v1⟩ := kv
      by_cases h1 : k1 = k
      · subst h1
        simp [dictSet, dictKeys]
      · have h0 : k ∈ k1 :: dictKeys rest := h
        have h2 : k ∈ dictKeys rest := by
          rcases List.mem_cons.mp h0 with e | e
          · exact absurd e.symm h1
          · exact e
        simp only [dictSet, if_neg h1, dictKeys, List.map_cons]
        rw [show List.map Prod.fst (dictSet rest k v) = dictKeys (dictSet rest k v) from rfl,
          ih h2]
        rfl

/-- Witness for the amended C5 theorem at concrete inputs. -/
theorem c5_insert_if_absent_amended_witness :
    dictKeys (PN.add_node
        (PN.add_node PN.initState "x" "ip1" 1 "m1" "v1" false none none)
        "x" "ip2" 2 "m2" "v2" true (some "d") (some "h")).nodes =
      dictKeys (PN.add_node PN.initState "x" "ip1" 1 "m1" "v1" false none none).nodes ∧
    (DP.processPeer "idA" (DP.seedPhase rpcC5 ["http://a:26657"] DP.initState)
        { id := some "idB", moniker := some "B2", version := some "v",
          remote_ip := some "7.7.7.7" }).discovered_peers =
      (DP.seedPhase rpcC5 ["http://a:26657"] DP.initState).discovered_peers ∧
    dictKeys (dictSet [("x", (1 : Nat))] "x" 2) = dictKeys [("x", (1 : Nat))] := by
  refine ⟨?_, ?_, ?_⟩
  · exact (c5_insert_if_absent_amended.1
      (PN.add_node PN.initState "x" "ip1" 1 "m1" "v1" false none none)
      "x" "ip2" 2 "m2" "v2" true (some "d") (some "h") (by decide)).1
  · exact c5_insert_if_absent_amended.2.1 "idA"
      (DP.seedPhase rpcC5 ["http://a:26657"] DP.initState)
      { id := some "idB", moniker := some "B2", version := some "v",
        remote_ip := some "7.7.7.7" } (by decide)
  · exact c5_insert_if_absent_amended.2.2 [("x", (1 : Nat))] "x" 2 (by decide)

/-! ### Merge-update semantics: monotone reachability, absent values -/

/-- The registry records `pid` as reachable. -/
def pnReachable (s : PN.PNState) (pid : String) : Prop :=
  (dictGet s.nodes pid).map PN.PNode.rpc_accessible = some true

/-- Arguments of one `add_node` call. -/
structure AddNodeArgs where
  peer_id : String
  ip : String
  port : Nat
  moniker : String
  version : String
  rpc_accessible : Bool
  dcl_version : Option String
  height : Option String

/-- A sequence of `add_node` calls, applied in order. -/
def applyAddNodes : PN.PNState → List AddNodeArgs → PN.PNState
  | s, [] => s
  | s, a :: rest =>
    applyAddNodes (PN.add_node s a.peer_id a.ip a.port a.moniker a.version
      a.rpc_accessible a.dcl_version a.height) rest

lemma PN_add_node_nodes_new (s : PN.PNState) (pid ip : String) (port : Nat)
    (mk v : String) (ra : Bool) (dv hh : Option String)
    (hg : dictGet s.nodes pid = none) :
    (PN.add_node s pid ip port mk v ra dv hh).nodes =
      s.nodes ++ [(pid, PN.PNode.mk pid ip port mk v ra dv hh (get_node_type mk) (get_org mk) (synthUrl ip) false)] := by
  simp only [PN.add_node, hg]

lemma PN_add_node_nodes_merge (s : PN.PNState) (pid ip : String) (port : Nat)
    (mk v : String) (ra : Bool) (dv hh : Option String) (n0 : PN.PNode)
    (hg : dictGet s.nodes pid = some n0) :
    (PN.add_node s pid ip port mk v ra dv hh).nodes =
      dictUpdate s.nodes pid (fun node =>
        let node := if ra then { node with rpc_accessible := true } else node
        let node := if isTruthy dv then { node with dcl_version := dv } else node
        if isTruthy hh then { node with height := hh } else node) := by
  simp only [PN.add_node, hg]

lemma pn_add_node_reach_mono (s : PN.PNState) (a : AddNodeArgs) (pid : String)
    (h : pnReachable s pid) :
    pnReachable (PN.add_node s a.peer_id a.ip a.port a.moniker a.version
      a.rpc_accessible a.dcl_version a.height) pid := by
  unfold pnReachable at h ⊢
  rw [Option.map_eq_some'] at h
  obtain ⟨n, hg, hr⟩ := h
  cases hg2 : dictGet s.nodes a.peer_id with
  | none =>
    rw [PN_add_node_nodes_new _ _ _ _ _ _ _ _ _ hg2, dictGet_append_some _ hg]
    simp [hr]
  | some n0 =>
    rw [PN_add_node_nodes_merge _ _ _ _ _ _ _ _ _ _ hg2]
    by_cases he : pid = a.peer_id
    · subst he
      rw [dictGet_dictUpdate_self, hg]
      cases hra : a.rpc_accessible <;> cases h1 : isTruthy a.dcl_version <;>
        cases h2 : isTruthy a.height <;> simp [hra, h1, h2, hr]
    · rw [dictGet_dictUpdate_ne _ _ _ _ he, hg]
      simp [hr]

lemma pn_applyAddNodes_reach_mono (calls : List AddNodeArgs) :
    ∀ (s : PN.PNState) (pid : String),
      pnReachable s pid → pnReachable (applyAddNodes s calls) pid := by
  induction calls with
  | nil => intro s pid h; exact h
  | cons a rest ih => intro s pid h; exact ih _ pid (pn_add_node_reach_mono s a pid h)

/-- A record that is not (yet) reachable carries no stored optional
values — the shape every record produced by the discover_peers.py crawl
has. -/
def dpNodeOptClean (n : DP.NodeRec) : Prop :=
  n.rpc_accessible = false → n.dcl_version = none ∧ n.height = none

/-- All registry records are clean in the sense of `dpNodeOptClean`. -/
def dpOptInv (s : DP.DPState) : Prop :=
  ∀ p ∈ s.discovered_peers, dpNodeOptClean p.2

lemma dp_check_peer_of_accessible (rpc : Rpc) (p : DP.NodeRec)
    (h : p.rpc_accessible = true) : DP.check_peer rpc p = p := by
  simp [DP.check_peer, h]

lemma dpOptInv_processPeer (src : String) (s : DP.DPState) (peer : PeerEntry)
    (h : dpOptInv s) : dpOptInv (DP.processPeer src s peer) := by
  rcases DP_processPeer_nodes src s peer with he | ⟨pid, ip, mk, v, -, he⟩
  · intro p hp
    rw [he] at hp
    exact h p hp
  · intro p hp
    rw [he] at hp
    rcases List.mem_append.mp hp with hp | hp
    · exact h p hp
    · simp only [List.mem_singleton] at hp
      subst hp
      intro _
      exact ⟨rfl, rfl⟩

lemma dpOptInv_discover (rpc : Rpc) (src url : String) (s : DP.DPState)
    (h : dpOptInv s) : dpOptInv (DP.discover_from_node rpc src url s) := by
  unfold DP.discover_from_node
  by_cases hv : url ∈ s.visited_rpcs
  · rw [if_pos hv]
    exact h
  · rw [if_neg hv]
    refine foldl_preserves dpOptInv _
      (fun s2 b h2 => dpOptInv_processPeer src s2 b h2) _ _ ?_
    intro p hp
    exact h p hp

lemma DP_seedStep_eq_none (rpc : Rpc) (s : DP.DPState) (seed : String)
    (hst : rpc.statusOf seed = none) : DP.seedStep rpc s seed = s := by
  simp only [DP.seedStep, hst]

lemma DP_seedStep_eq_skip (rpc : Rpc) (s : DP.DPState) (seed : String) (st : StatusRec)
    (hst : rpc.statusOf seed = some st) (hid : isTruthy st.id = false) :
    DP.seedStep rpc s seed = s := by
  simp only [DP.seedStep, hst, hid]
  rfl

lemma DP_seedStep_eq_go (rpc : Rpc) (s : DP.DPState) (seed : String) (st : StatusRec)
    (hst : rpc.statusOf seed = some st) (hid : isTruthy st.id = true) :
    DP.seedStep rpc s seed =
      DP.discover_from_node rpc (st.id.getD "") seed
        (DP.DPState.mk
          (dictSet s.discovered_peers (st.id.getD "")
            (DP.seedNode rpc seed (st.id.getD "") (st.moniker.getD "unknown") st))
          s.edges s.edge_set s.visited_rpcs) := by
  simp only [DP.seedStep, hst, hid, if_true]

lemma dpOptInv_seedStep (rpc : Rpc) (s : DP.DPState) (seed : String)
    (h : dpOptInv s) : dpOptInv (DP.seedStep rpc s seed) := by
  cases hst : rpc.statusOf seed with
  | none =>
    rw [DP_seedStep_eq_none rpc s seed hst]
    exact h
  | some st =>
    by_cases hid : isTruthy st.id = true
    · rw [DP_seedStep_eq_go rpc s seed st hst hid]
      apply dpOptInv_discover
      intro p hp
      rcases mem_dictSet hp with hp | hp
      · exact h p hp
      · subst hp
        intro hacc
        simp [DP.seedNode] at hacc
    · rw [DP_seedStep_eq_skip rpc s seed st hst (by simpa using hid)]
      exact h

lemma dpOptInv_crawl (rpc : Rpc) (seeds : List String)
    (σ : List (String × String) → List (String × String)) (fuel : Nat) :
    dpOptInv (DP.crawl_network rpc seeds σ fuel) := by
  have hseed : dpOptInv (DP.seedPhase rpc seeds DP.initState) := by
    refine foldl_preserves dpOptInv _
      (fun s2 b h2 => dpOptInv_seedStep rpc s2 b h2) _ _ ?_
    intro p hp
    simp [DP.initState] at hp
  have hloop : ∀ (n : Nat) (s : DP.DPState), dpOptInv s → dpOptInv (DP.dpLoop rpc σ n s) := by
    intro n
    induction n with
    | zero => intro s h; exact h
    | succ k ih =>
      intro s h
      show dpOptInv (if DP.dpFrontier s = [] then s
        else DP.dpLoop rpc σ k (DP.runTasks rpc (σ (DP.dpFrontier s)) s))
      by_cases hf : DP.dpFrontier s = []
      · rw [if_pos hf]
        exact h
      · rw [if_neg hf]
        apply ih
        exact foldl_preserves dpOptInv _
          (fun s2 t h2 => dpOptInv_discover rpc t.1 t.2 s2 h2) _ _ h
  exact hloop fuel _ hseed

/-- C6: reachability is monotone — a node recorded reachable stays
reachable under any sequence of `add_node` merge-updates, and `check_peer`
does not touch an already-reachable record; `add_node` overwrites
appVersion/height only when the call supplies a value (an absent value
leaves the stored one unchanged); `check_peer` likewise leaves stored
values unchanged when the re-queried value is absent, on every record
shape the crawl actually produces — and every record produced by
`crawl_network` has that shape (unreachable records store no optional
values). -/
theorem c6_merge_update_monotone :
    (∀ (s : PN.PNState) (calls : List AddNodeArgs) (pid : String),
      pnReachable s pid → pnReachable (applyAddNodes s calls) pid) ∧
    (∀ (s : PN.PNState) (pid ip : String) (port : Nat) (mk v : String) (ra : Bool)
      (dv hh : Option String),
      (dictGet s.nodes pid).isSome = true →
      ∃ n m, dictGet s.nodes pid = some n ∧
        dictGet (PN.add_node s pid ip port mk v ra dv hh).nodes pid = some m ∧
        (dv = none → m.dcl_version = n.dcl_version) ∧
        (hh = none → m.height = n.height) ∧
        (n.rpc_accessible = true → m.rpc_accessible = true)) ∧
    (∀ (rpc : Rpc) (p : DP.NodeRec), p.rpc_accessible = true →
      DP.check_peer rpc p = p) ∧
    (∀ (rpc : Rpc) (p : DP.NodeRec), dpNodeOptClean p →
      (rpc.abci p.rpc_url = none →
        (DP.check_peer rpc p).dcl_version = p.dcl_version) ∧
      ((∀ st, rpc.statusOf p.rpc_url = some st → st.height = none) →
        (DP.check_peer rpc p).height = p.height)) ∧
    (∀ (rpc : Rpc) (seeds : List String)
      (σ : List (String × String) → List (String × String)) (fuel : Nat),
      dpOptInv (DP.crawl_network rpc seeds σ fuel)) := by
  refine ⟨?_, ?_, dp_check_peer_of_accessible, ?_, dpOptInv_crawl⟩
  · intro s calls pid h
    exact pn_applyAddNodes_reach_mono calls s pid h
  · intro s pid ip port mk v ra dv hh hs
    rw [Option.isSome_iff_exists] at hs
    obtain ⟨n, hg⟩ := hs
    have hm : dictGet (PN.add_node s pid ip port mk v ra dv hh).nodes pid =
        some (let node := if ra then { n with rpc_accessible := true } else n
              let node := if isTruthy dv then { node with dcl_version := dv } else node
              if isTruthy hh then { node with height := hh } else node) := by
      simp only [PN.add_node, hg]
      rw [dictGet_dictUpdate_self, hg]
      rfl
    refine ⟨n, _, hg, hm, ?_, ?_, ?_⟩
    · intro hdv
      subst hdv
      cases ra <;> cases hht : isTruthy hh <;> simp [hht, isTruthy]
    · intro hhh
      subst hhh
      cases ra <;> cases hdt : isTruthy dv <;> simp [hdt, isTruthy]
    · intro hr
      cases ra <;> cases hdt : isTruthy dv <;> cases hht : isTruthy hh <;>
        simp [hdt, hht, hr]
  · intro rpc p hcl
    unfold DP.check_peer
    by_cases hra : p.rpc_accessible = true
    · simp [hra]
    · have hra2 : p.rpc_accessible = false := by
        cases hb : p.rpc_accessible
        · rfl
        · exact absurd hb hra
      obtain ⟨hd, hh⟩ := hcl hra2
      rw [if_neg hra]
      cases hst : rpc.statusOf p.rpc_url with
      | none => exact ⟨fun _ => rfl, fun _ => rfl⟩
      | some st =>
        constructor
        · intro habci
          simp [habci, hd]
        · intro hsth
          have hth := hsth st rfl
          simp [hth, hh]

/-- Witness for C6 at concrete inputs. -/
theorem c6_merge_update_monotone_witness :
    pnReachable (applyAddNodes (PN.add_node PN.initState "x" "ip" 1 "m" "v" true none none)
      [AddNodeArgs.mk "x" "ip2" 2 "m2" "v2" false none none]) "x" ∧
    (∃ n m, dictGet (PN.add_node PN.initState "x" "ip" 1 "m" "v" true none none).nodes
        "x" = some n ∧
      dictGet (PN.add_node (PN.add_node PN.initState "x" "ip" 1 "m" "v" true none none)
        "x" "ip2" 2 "m2" "v2" false none none).nodes "x" = some m ∧
      (none = (none : Option String) → m.dcl_version = n.dcl_version) ∧
      (none = (none : Option String) → m.height = n.height) ∧
      (n.rpc_accessible = true → m.rpc_accessible = true)) ∧
    DP.check_peer rpcNone
        (DP.seedNode rpcNone "http://a:26657" "x" "m" (StatusRec.mk (some "x") none none none)) =
      DP.seedNode rpcNone "http://a:26657" "x" "m" (StatusRec.mk (some "x") none none none) ∧
    (rpcNone.abci (DP.peerNode "x" "1.2.3.4" "m" "v").rpc_url = none →
      (DP.check_peer rpcNone (DP.peerNode "x" "1.2.3.4" "m" "v")).dcl_version =
        (DP.peerNode "x" "1.2.3.4" "m" "v").dcl_version) ∧
    dpOptInv (DP.crawl_network rpcNone [] id 1) := by
  refine ⟨?_, ?_, ?_, ?_, ?_⟩
  · exact c6_merge_update_monotone.1 (PN.add_node PN.initState "x" "ip" 1 "m" "v" true none none)
      [AddNodeArgs.mk "x" "ip2" 2 "m2" "v2" false none none] "x"
      (by unfold pnReachable; decide)
  · exact c6_merge_update_monotone.2.1
      (PN.add_node PN.initState "x" "ip" 1 "m" "v" true none none)
      "x" "ip2" 2 "m2" "v2" false none none (by decide)
  · exact c6_merge_update_monotone.2.2.1 rpcNone _ (by decide)
  · exact (c6_merge_update_monotone.2.2.2.1 rpcNone
      (DP.peerNode "x" "1.2.3.4" "m" "v") (by unfold dpNodeOptClean; decide)).1
  · exact c6_merge_update_monotone.2.2.2.2 rpcNone [] id 1

/-! ### End-to-end scenario -/

lemma dpLoop_succ (rpc : Rpc) (σ : List (String × String) → List (String × String))
    (n : Nat) (s : DP.DPState) :
    DP.dpLoop rpc σ (n + 1) s =
      if DP.dpFrontier s = [] then s
      else DP.dpLoop rpc σ n (DP.runTasks rpc (σ (DP.dpFrontier s)) s) := rfl

/-- C8: with seeds A and B both reporting only peer C (public address)
and C reporting no peers, the crawl — under every serialization order of
the dispatched task batches — ends with exactly the nodes A, C, B and
exactly the edges (A,C) and (B,C). -/
theorem c8_end_to_end_scenario (σ : List (String × String) → List (String × String))
    (hσ : ∀ l, List.Perm (σ l) l) :
    dictKeys (DP.crawl_network rpcC8 seedsC8 σ 5).discovered_peers =
      ["idA", "idC", "idB"] ∧
    (DP.crawl_network rpcC8 seedsC8 σ 5).edges =
      [{ source := "idA", target := "idC" }, { source := "idB", target := "idC" }] := by
  have hs1 : σ [("idC", "http://9.9.9.9:26657")] = [("idC", "http://9.9.9.9:26657")] :=
    List.perm_singleton.mp (hσ _)
  have key : DP.crawl_network rpcC8 seedsC8 σ 5 =
      DP.runTasks rpcC8 [("idC", "http://9.9.9.9:26657")]
        (DP.seedPhase rpcC8 seedsC8 DP.initState) := by
    show DP.dpLoop rpcC8 σ 5 (DP.seedPhase rpcC8 seedsC8 DP.initState) = _
    rw [show (5 : Nat) = 4 + 1 from rfl, dpLoop_succ]
    rw [if_neg (by decide)]
    rw [show DP.dpFrontier (DP.seedPhase rpcC8 seedsC8 DP.initState) =
      [("idC", "http://9.9.9.9:26657")] from by decide]
    rw [hs1]
    rw [show (4 : Nat) = 3 + 1 from rfl, dpLoop_succ]
    rw [if_pos (by decide)]
  rw [key]
  exact ⟨by decide, by decide⟩

/-- Witness for C8: the identity serialization order. -/
theorem c8_end_to_end_scenario_witness :
    dictKeys (DP.crawl_network rpcC8 seedsC8 id 5).discovered_peers =
      ["idA", "idC", "idB"] ∧
    (DP.crawl_network rpcC8 seedsC8 id 5).edges =
      [{ source := "idA", target := "idC" }, { source := "idB", target := "idC" }] :=
  c8_end_to_end_scenario id (fun l => List.Perm.refl l)

/-! ### Shape lemmas for the web-server variant's operations -/

lemma dictGet_isSome_of_mem {α : Type} {l : List (String × α)} {k : String}
    (h : k ∈ dictKeys l) : ∃ v, dictGet l k = some v := by
  cases hg : dictGet l k with
  | none => exact absurd ((dictGet_eq_none_iff l k).mp hg) (fun hn => hn h)
  | some v => exact ⟨v, rfl⟩

lemma dictGet_append_single {α : Type} {l : List (String × α)} {pid k : String}
    {n m : α} (h : dictGet (l ++ [(pid, n)]) k = some m) :
    dictGet l k = some m ∨ (k = pid ∧ m = n) := by
  cases hgl : dictGet l k with
  | some v =>
    rw [dictGet_append_some _ hgl] at h
    cases h
    exact Or.inl rfl
  | none =>
    rw [dictGet_append_none _ hgl] at h
    rw [dictGet_cons] at h
    by_cases he : pid = k
    · rw [if_pos he] at h
      cases h
      exact Or.inr ⟨he.symm, rfl⟩
    · rw [if_neg he] at h
      exact absurd h (by simp [dictGet])

lemma PN_add_edge_nodes (s : PN.PNState) (a b : String) :
    (PN.add_edge s a b).nodes = s.nodes := by
  unfold PN.add_edge
  by_cases h : sortPair a b ∈ s.edge_set <;> simp [h]

lemma PN_add_edge_visited (s : PN.PNState) (a b : String) :
    (PN.add_edge s a b).visited_rpcs = s.visited_rpcs := by
  unfold PN.add_edge
  by_cases h : sortPair a b ∈ s.edge_set <;> simp [h]

lemma PN_add_edge_edges (s : PN.PNState) (a b : String) :
    (PN.add_edge s a b).edges = s.edges ∨
    (PN.add_edge s a b).edges = s.edges ++ [{ source := a, target := b }] := by
  by_cases h : sortPair a b ∈ s.edge_set
  · rw [PN_add_edge_mem s a b h]
    exact Or.inl rfl
  · exact Or.inr (PN_add_edge_not_mem s a b h).1

lemma PN_add_node_visited (s : PN.PNState) (pid ip : String) (port : Nat)
    (mk v : String) (ra : Bool) (dv hh : Option String) :
    (PN.add_node s pid ip port mk v ra dv hh).visited_rpcs = s.visited_rpcs := by
  unfold PN.add_node
  cases hg : dictGet s.nodes pid <;> simp

lemma PN_add_node_edges (s : PN.PNState) (pid ip : String) (port : Nat)
    (mk v : String) (ra : Bool) (dv hh : Option String) :
    (PN.add_node s pid ip port mk v ra dv hh).edges = s.edges := by
  unfold PN.add_node
  cases hg : dictGet s.nodes pid <;> simp

lemma PN_processPeer_visited (src : String) (s : PN.PNState) (peer : PeerEntry) :
    (PN.processPeer src s peer).visited_rpcs = s.visited_rpcs := by
  unfold PN.processPeer
  by_cases h1 : (!isTruthy peer.id || !isTruthy peer.remote_ip) = true
  · rw [if_pos h1]
  · rw [if_neg h1]
    by_cases h2 : is_private_ip (peer.remote_ip.getD "") = true
    · rw [if_pos h2]
    · rw [if_neg h2]
      by_cases h3 : (src != "") = true
      · rw [if_pos h3, PN_add_edge_visited, PN_add_node_visited]
      · rw [if_neg h3, PN_add_node_visited]

lemma PN_discover_eq_visited (rpc : Rpc) (src url : String) (s : PN.PNState)
    (hv : url ∈ s.visited_rpcs) : PN.discover_from_node rpc src url s = s := by
  unfold PN.discover_from_node
  rw [if_pos hv]

lemma PN_discover_eq_new (rpc : Rpc) (src url : String) (s : PN.PNState)
    (hv : url ∉ s.visited_rpcs) :
    PN.discover_from_node rpc src url s =
      (rpc.net url).foldl (PN.processPeer src)
        (PN.PNState.mk s.nodes s.edges s.edge_set (url :: s.visited_rpcs)
          s.stats s.status) := by
  unfold PN.discover_from_node
  rw [if_neg hv]

lemma PN_setDiscovered_keys (s : PN.PNState) (pid : String) :
    dictKeys (PN.setDiscovered s pid).nodes = dictKeys s.nodes := by
  simp [PN.setDiscovered, dictKeys_dictUpdate]

lemma PN_crawl_worker_eq_none (rpc : Rpc) (s : PN.PNState) (pid : String)
    (hg : dictGet s.nodes pid = none) : PN.crawl_worker rpc s pid = s := by
  simp only [PN.crawl_worker, hg]

lemma PN_crawl_worker_eq_down (rpc : Rpc) (s : PN.PNState) (pid : String)
    (peer_info : PN.PNode) (hg : dictGet s.nodes pid = some peer_info)
    (hst : rpc.statusOf peer_info.rpc_url = none) :
    PN.crawl_worker rpc s pid =
      PN.setDiscovered (PN.discover_from_node rpc pid peer_info.rpc_url s) pid := by
  simp only [PN.crawl_worker, hg, hst]

/-- The stats-recount step inside `crawl_worker` (peer_network.py lines
220-223): recompute `accessible_rpc` over the current registry. -/
def pnWithAccessCount (s : PN.PNState) : PN.PNState :=
  { s with stats := { s.stats with
      accessible_rpc := (s.nodes.filter (fun p => p.2.rpc_accessible)).length } }

lemma PN_crawl_worker_eq_up (rpc : Rpc) (s : PN.PNState) (pid : String)
    (peer_info : PN.PNode) (st : StatusRec) (hg : dictGet s.nodes pid = some peer_info)
    (hst : rpc.statusOf peer_info.rpc_url = some st) :
    PN.crawl_worker rpc s pid =
      PN.setDiscovered
        (PN.discover_from_node rpc pid peer_info.rpc_url
          (pnWithAccessCount
            (PN.add_node s pid peer_info.ip peer_info.port peer_info.moniker
              peer_info.tendermint_version true (rpc.abci peer_info.rpc_url) st.height)))
        pid := by
  simp only [PN.crawl_worker, hg, hst, pnWithAccessCount]

/-! ### Monotone evolution of the web-server run state -/

/-- What every operation of the crawl preserves: node keys only grow,
the visited set only grows, and an existing record keeps its RPC address
while its `_discovered` mark can only go from unset to set. -/
def pnEvolves (s t : PN.PNState) : Prop :=
  (∀ k, k ∈ dictKeys s.nodes → k ∈ dictKeys t.nodes) ∧
  (∀ u, u ∈ s.visited_rpcs → u ∈ t.visited_rpcs) ∧
  (∀ k n, dictGet s.nodes k = some n → ∃ m, dictGet t.nodes k = some m ∧
    m.rpc_url = n.rpc_url ∧ m.ip = n.ip ∧ (n.discovered = true → m.discovered = true))

lemma pnEvolves_refl (s : PN.PNState) : pnEvolves s s :=
  ⟨fun _ h => h, fun _ h => h, fun _ n h => ⟨n, h, rfl, rfl, fun d => d⟩⟩

lemma pnEvolves_trans {s t u : PN.PNState} (h1 : pnEvolves s t) (h2 : pnEvolves t u) :
    pnEvolves s u := by
  refine ⟨fun k hk => h2.1 k (h1.1 k hk), fun v hv => h2.2.1 v (h1.2.1 v hv), ?_⟩
  intro k n hg
  obtain ⟨m, hm, hurl, hip, hd⟩ := h1.2.2 k n hg
  obtain ⟨m2, hm2, hurl2, hip2, hd2⟩ := h2.2.2 k m hm
  exact ⟨m2, hm2, hurl2.trans hurl, hip2.trans hip, fun d => hd2 (hd d)⟩

lemma pnEvolves_of_eq {s t : PN.PNState} (hn : t.nodes = s.nodes)
    (hv : s.visited_rpcs = t.visited_rpcs) : pnEvolves s t := by
  refine ⟨fun k hk => ?_, fun u hu => ?_, fun k n hg => ?_⟩
  · rw [hn]; exact hk
  · rw [← hv]; exact hu
  · rw [hn]; exact ⟨n, hg, rfl, rfl, fun d => d⟩

lemma pnEvolves_dictUpdate (s : PN.PNState) (key : String) (f : PN.PNode → PN.PNode)
    (hf : ∀ n, (f n).rpc_url = n.rpc_url ∧ (f n).ip = n.ip ∧
      (n.discovered = true → (f n).discovered = true))
    (t : PN.PNState) (ht : t.nodes = dictUpdate s.nodes key f)
    (hv : t.visited_rpcs = s.visited_rpcs) : pnEvolves s t := by
  refine ⟨fun k hk => ?_, fun u hu => ?_, fun k n hg => ?_⟩
  · rw [ht, dictKeys_dictUpdate]; exact hk
  · rw [hv]; exact hu
  · rw [ht]
    by_cases he : k = key
    · subst he
      rw [dictGet_dictUpdate_self, hg]
      exact ⟨f n, rfl, (hf n).1, (hf n).2.1, (hf n).2.2⟩
    · rw [dictGet_dictUpdate_ne _ _ _ _ he]
      exact ⟨n, hg, rfl, rfl, fun d => d⟩

lemma pnEvolves_add_node (s : PN.PNState) (pid ip : String) (port : Nat)
    (mk v : String) (ra : Bool) (dv hh : Option String) :
    pnEvolves s (PN.add_node s pid ip port mk v ra dv hh) := by
  cases hg : dictGet s.nodes pid with
  | none =>
    have he := PN_add_node_nodes_new s pid ip port mk v ra dv hh hg
    refine ⟨fun k hk => ?_, fun u hu => ?_, fun k n hgk => ?_⟩
    · rw [he, dictKeys_append]
      exact List.mem_append_left _ hk
    · rw [PN_add_node_visited]
      exact hu
    · rw [he, dictGet_append_some _ hgk]
      exact ⟨n, rfl, rfl, rfl, fun d => d⟩
  | some n0 =>
    refine pnEvolves_dictUpdate s pid _ ?_ _
      (PN_add_node_nodes_merge s pid ip port mk v ra dv hh n0 hg)
      (PN_add_node_visited s pid ip port mk v ra dv hh)
    intro n
    cases ra <;> cases h1 : isTruthy dv <;> cases h2 : isTruthy hh <;>
      simp [h1, h2]

lemma pnEvolves_add_edge (s : PN.PNState) (a b : String) :
    pnEvolves s (PN.add_edge s a b) :=
  pnEvolves_of_eq (PN_add_edge_nodes s a b) (PN_add_edge_visited s a b).symm

lemma pnEvolves_setDiscovered (s : PN.PNState) (pid : String) :
    pnEvolves s (PN.setDiscovered s pid) := by
  refine pnEvolves_dictUpdate s pid (fun n => { n with discovered := true }) ?_
    (PN.setDiscovered s pid) (by simp [PN.setDiscovered]) (by simp [PN.setDiscovered])
  intro n
  exact ⟨rfl, rfl, fun _ => rfl⟩

lemma pnEvolves_processPeer (src : String) (s : PN.PNState) (peer : PeerEntry) :
    pnEvolves s (PN.processPeer src s peer) := by
  unfold PN.processPeer
  by_cases h1 : (!isTruthy peer.id || !isTruthy peer.remote_ip) = true
  · rw [if_pos h1]
    exact pnEvolves_refl s
  · rw [if_neg h1]
    by_cases h2 : is_private_ip (peer.remote_ip.getD "") = true
    · rw [if_pos h2]
      exact pnEvolves_refl s
    · rw [if_neg h2]
      by_cases h3 : (src != "") = true
      · rw [if_pos h3]
        exact pnEvolves_trans (pnEvolves_add_node s _ _ _ _ _ _ _ _)
          (pnEvolves_add_edge _ _ _)
      · rw [if_neg h3]
        exact pnEvolves_add_node s _ _ _ _ _ _ _ _

lemma pnEvolves_foldl {β : Type} (f : PN.PNState → β → PN.PNState)
    (hf : ∀ s b, pnEvolves s (f s b)) :
    ∀ (l : List β) (s : PN.PNState), pnEvolves s (l.foldl f s) := by
  intro l
  induction l with
  | nil => intro s; exact pnEvolves_refl s
  | cons b rest ih =>
    intro s
    exact pnEvolves_trans (hf s b) (ih (f s b))

lemma pnEvolves_discover (rpc : Rpc) (src url : String) (s : PN.PNState) :
    pnEvolves s (PN.discover_from_node rpc src url s) := by
  by_cases hv : url ∈ s.visited_rpcs
  · rw [PN_discover_eq_visited rpc src url s hv]
    exact pnEvolves_refl s
  · rw [PN_discover_eq_new rpc src url s hv]
    refine pnEvolves_trans (t := PN.PNState.mk s.nodes s.edges s.edge_set
      (url :: s.visited_rpcs) s.stats s.status) ?_ ?_
    · exact ⟨fun k hk => hk, fun u hu => List.mem_cons_of_mem _ hu,
        fun k n hg => ⟨n, hg, rfl, rfl, fun d => d⟩⟩
    · exact pnEvolves_foldl _ (fun s2 b => pnEvolves_processPeer src s2 b) _ _

lemma pnEvolves_withAccessCount (s : PN.PNState) : pnEvolves s (pnWithAccessCount s) :=
  pnEvolves_of_eq rfl rfl

lemma pnEvolves_crawl_worker (rpc : Rpc) (s : PN.PNState) (pid : String) :
    pnEvolves s (PN.crawl_worker rpc s pid) := by
  cases hg : dictGet s.nodes pid with
  | none =>
    rw [PN_crawl_worker_eq_none rpc s pid hg]
    exact pnEvolves_refl s
  | some peer_info =>
    cases hst : rpc.statusOf peer_info.rpc_url with
    | none =>
      rw [PN_crawl_worker_eq_down rpc s pid peer_info hg hst]
      exact pnEvolves_trans (pnEvolves_discover rpc pid peer_info.rpc_url s)
        (pnEvolves_setDiscovered _ _)
    | some st =>
      rw [PN_crawl_worker_eq_up rpc s pid peer_info st hg hst]
      exact pnEvolves_trans
        (pnEvolves_add_node s pid peer_info.ip peer_info.port peer_info.moniker
          peer_info.tendermint_version true (rpc.abci peer_info.rpc_url) st.height)
        (pnEvolves_trans (pnEvolves_withAccessCount _)
          (pnEvolves_trans (pnEvolves_discover rpc pid peer_info.rpc_url _)
            (pnEvolves_setDiscovered _ _)))

lemma pnEvolves_runWorkers (rpc : Rpc) (pids : List String) (s : PN.PNState) :
    pnEvolves s (PN.runWorkers rpc s pids) :=
  pnEvolves_foldl _ (fun s2 p => pnEvolves_crawl_worker rpc s2 p) pids s

/-! ### Well-formedness of the run state under a closed network -/

/-- The network is closed over the finite address set `U`: every peer
address any node reports synthesizes to an RPC URL inside `U`. -/
def netClosed (rpc : Rpc) (U : Finset String) : Prop :=
  ∀ url p, p ∈ rpc.net url → synthUrl (p.remote_ip.getD "") ∈ U

/-- Well-formed run state: registry keys are distinct, and every stored
record's RPC URL lies in `U` and is the one synthesized from its IP. -/
def pnWF (U : Finset String) (s : PN.PNState) : Prop :=
  (dictKeys s.nodes).Nodup ∧
  ∀ k n, dictGet s.nodes k = some n → n.rpc_url ∈ U ∧ n.rpc_url = synthUrl n.ip

lemma pnWF_of_nodes_eq {U : Finset String} {s t : PN.PNState}
    (h : t.nodes = s.nodes) (hw : pnWF U s) : pnWF U t := by
  constructor
  · rw [h]; exact hw.1
  · intro k n hg
    rw [h] at hg
    exact hw.2 k n hg

lemma pnWF_dictUpdate {U : Finset String} (s : PN.PNState) (key : String)
    (f : PN.PNode → PN.PNode)
    (hf : ∀ n, (f n).rpc_url = n.rpc_url ∧ (f n).ip = n.ip)
    (t : PN.PNState) (ht : t.nodes = dictUpdate s.nodes key f)
    (hw : pnWF U s) : pnWF U t := by
  constructor
  · rw [ht, dictKeys_dictUpdate]; exact hw.1
  · intro k n hg
    rw [ht] at hg
    by_cases he : k = key
    · subst he
      rw [dictGet_dictUpdate_self] at hg
      cases hg0 : dictGet s.nodes k with
      | none => rw [hg0] at hg; cases hg
      | some n0 =>
        rw [hg0] at hg
        cases hg
        obtain ⟨hU, he⟩ := hw.2 k n0 hg0
        rw [(hf n0).1, (hf n0).2]
        exact ⟨hU, he⟩
    · rw [dictGet_dictUpdate_ne _ _ _ _ he] at hg
      exact hw.2 k n hg

lemma pnWF_add_node {U : Finset String} (s : PN.PNState) (pid ip : String)
    (port : Nat) (mk v : String) (ra : Bool) (dv hh : Option String)
    (hURL : synthUrl ip ∈ U) (hw : pnWF U s) :
    pnWF U (PN.add_node s pid ip port mk v ra dv hh) := by
  cases hg : dictGet s.nodes pid with
  | none =>
    have he := PN_add_node_nodes_new s pid ip port mk v ra dv hh hg
    constructor
    · rw [he, dictKeys_append]
      rw [List.nodup_append]
      refine ⟨hw.1, List.nodup_singleton _, ?_⟩
      intro x hx hx2
      simp only [dictKeys, List.map_cons, List.map_nil, List.mem_singleton] at hx2
      subst hx2
      exact absurd hx ((dictGet_eq_none_iff _ _).mp hg)
    · intro k n hgk
      rw [he] at hgk
      rcases dictGet_append_single hgk with hgk | ⟨-, hgk⟩
      · exact hw.2 k n hgk
      · subst hgk
        exact ⟨hURL, rfl⟩
  | some n0 =>
    refine pnWF_dictUpdate s pid _ ?_ _
      (PN_add_node_nodes_merge s pid ip port mk v ra dv hh n0 hg) hw
    intro n
    cases ra <;> cases h1 : isTruthy dv <;> cases h2 : isTruthy hh <;>
      simp [h1, h2]

lemma pnWF_add_edge {U : Finset String} (s : PN.PNState) (a b : String)
    (hw : pnWF U s) : pnWF U (PN.add_edge s a b) :=
  pnWF_of_nodes_eq (PN_add_edge_nodes s a b) hw

lemma pnWF_setDiscovered {U : Finset String} (s : PN.PNState) (pid : String)
    (hw : pnWF U s) : pnWF U (PN.setDiscovered s pid) := by
  refine pnWF_dictUpdate s pid (fun n => { n with discovered := true }) ?_
    (PN.setDiscovered s pid) (by simp [PN.setDiscovered]) hw
  intro n
  exact ⟨rfl, rfl⟩

lemma foldl_preserves_mem {σ β : Type} (P : σ → Prop) (f : σ → β → σ) :
    ∀ (l : List β), (∀ s b, b ∈ l → P s → P (f s b)) →
      ∀ s, P s → P (l.foldl f s) := by
  intro l
  induction l with
  | nil => intro _ s h; exact h
  | cons b rest ih =>
    intro hf s h
    exact ih (fun s2 b2 hb2 => hf s2 b2 (List.mem_cons_of_mem _ hb2)) (f s b)
      (hf s b (List.mem_cons_self _ _) h)

lemma pnWF_processPeer {U : Finset String} (src : String) (s : PN.PNState)
    (peer : PeerEntry) (hpu : synthUrl (peer.remote_ip.getD "") ∈ U)
    (hw : pnWF U s) : pnWF U (PN.processPeer src s peer) := by
  unfold PN.processPeer
  by_cases h1 : (!isTruthy peer.id || !isTruthy peer.remote_ip) = true
  · rw [if_pos h1]; exact hw
  · rw [if_neg h1]
    by_cases h2 : is_private_ip (peer.remote_ip.getD "") = true
    · rw [if_pos h2]; exact hw
    · rw [if_neg h2]
      have hwa := pnWF_add_node s (peer.id.getD "") (peer.remote_ip.getD "") 26656
        (peer.moniker.getD "unknown") (peer.version.getD "unknown") false none none
        hpu hw
      by_cases h3 : (src != "") = true
      · rw [if_pos h3]
        exact pnWF_add_edge _ _ _ hwa
      · rw [if_neg h3]
        exact hwa

lemma pnWF_discover {U : Finset String} (rpc : Rpc) (src url : String)
    (s : PN.PNState) (hnet : netClosed rpc U) (hw : pnWF U s) :
    pnWF U (PN.discover_from_node rpc src url s) := by
  by_cases hv : url ∈ s.visited_rpcs
  · rw [PN_discover_eq_visited rpc src url s hv]; exact hw
  · rw [PN_discover_eq_new rpc src url s hv]
    refine foldl_preserves_mem (pnWF U) _ (rpc.net url) ?_ _
      (pnWF_of_nodes_eq rfl hw)
    intro s2 p hp hw2
    exact pnWF_processPeer src s2 p (hnet url p hp) hw2

lemma pnWF_withAccessCount {U : Finset String} (s : PN.PNState) (hw : pnWF U s) :
    pnWF U (pnWithAccessCount s) :=
  pnWF_of_nodes_eq rfl hw

lemma pnWF_crawl_worker {U : Finset String} (rpc : Rpc) (s : PN.PNState)
    (pid : String) (hnet : netClosed rpc U) (hw : pnWF U s) :
    pnWF U (PN.crawl_worker rpc s pid) := by
  cases hg : dictGet s.nodes pid with
  | none => rw [PN_crawl_worker_eq_none rpc s pid hg]; exact hw
  | some peer_info =>
    cases hst : rpc.statusOf peer_info.rpc_url with
    | none =>
      rw [PN_crawl_worker_eq_down rpc s pid peer_info hg hst]
      exact pnWF_setDiscovered _ _ (pnWF_discover rpc pid peer_info.rpc_url s hnet hw)
    | some st =>
      rw [PN_crawl_worker_eq_up rpc s pid peer_info st hg hst]
      have hURL : synthUrl peer_info.ip ∈ U := by
        obtain ⟨hU, he⟩ := hw.2 pid peer_info hg
        rw [← he]
        exact hU
      exact pnWF_setDiscovered _ _ (pnWF_discover rpc pid peer_info.rpc_url _ hnet
        (pnWF_withAccessCount _ (pnWF_add_node s pid peer_info.ip peer_info.port
          peer_info.moniker peer_info.tendermint_version true (rpc.abci peer_info.rpc_url)
          st.height hURL hw)))

lemma pnWF_runWorkers {U : Finset String} (rpc : Rpc) (pids : List String)
    (s : PN.PNState) (hnet : netClosed rpc U) (hw : pnWF U s) :
    pnWF U (PN.runWorkers rpc s pids) :=
  foldl_preserves (pnWF U) _ (fun s2 p hw2 => pnWF_crawl_worker rpc s2 p hnet hw2)
    pids s hw

/-! ### Seed phase of `start_discovery` -/

lemma PN_seedStep_eq_none (rpc : Rpc) (s : PN.PNState) (seed : String × String)
    (hst : rpc.statusOf seed.1 = none) : PN.seedStep rpc s seed = s := by
  simp only [PN.seedStep, hst]

lemma PN_seedStep_eq_skip (rpc : Rpc) (s : PN.PNState) (seed : String × String)
    (st : StatusRec) (hst : rpc.statusOf seed.1 = some st)
    (hid : isTruthy st.id = false) : PN.seedStep rpc s seed = s := by
  simp only [PN.seedStep, hst, hid]
  rfl

lemma PN_seedStep_eq_go (rpc : Rpc) (s : PN.PNState) (seed : String × String)
    (st : StatusRec) (hst : rpc.statusOf seed.1 = some st)
    (hid : isTruthy st.id = true) :
    PN.seedStep rpc s seed =
      PN.setDiscovered
        (PN.discover_from_node rpc (st.id.getD "") seed.1
          (PN.add_node s (st.id.getD "") (hostOf seed.1) 26656 seed.2
            (st.version.getD "unknown") true (rpc.abci seed.1) st.height))
        (st.id.getD "") := by
  simp only [PN.seedStep, hst, hid, if_true]

lemma pnWF_seedStep {U : Finset String} (rpc : Rpc) (s : PN.PNState)
    (seed : String × String) (hnet : netClosed rpc U)
    (hsd : synthUrl (hostOf seed.1) ∈ U) (hw : pnWF U s) :
    pnWF U (PN.seedStep rpc s seed) := by
  cases hst : rpc.statusOf seed.1 with
  | none => rw [PN_seedStep_eq_none rpc s seed hst]; exact hw
  | some st =>
    by_cases hid : isTruthy st.id = true
    · rw [PN_seedStep_eq_go rpc s seed st hst hid]
      exact pnWF_setDiscovered _ _ (pnWF_discover rpc _ seed.1 _ hnet
        (pnWF_add_node s _ _ 26656 _ _ true _ _ hsd hw))
    · rw [PN_seedStep_eq_skip rpc s seed st hst (by simpa using hid)]
      exact hw

lemma pnWF_initState {U : Finset String} : pnWF U PN.initState := by
  constructor
  · simp [PN.initState, dictKeys]
  · intro k n hg
    simp [PN.initState, dictGet] at hg

lemma pnWF_seedPhase {U : Finset String} (rpc : Rpc) (seeds : List (String × String))
    (hnet : netClosed rpc U) (hseeds : ∀ sd ∈ seeds, synthUrl (hostOf sd.1) ∈ U) :
    pnWF U (seeds.foldl (PN.seedStep rpc) PN.initState) :=
  foldl_preserves_mem (pnWF U) _ seeds
    (fun s2 sd hsd hw2 => pnWF_seedStep rpc s2 sd hnet (hseeds sd hsd) hw2)
    PN.initState pnWF_initState

/-! ### The crawl loop makes progress and converges -/

lemma PN_crawl_worker_visited {U : Finset String} (rpc : Rpc) (s : PN.PNState)
    (pid : String) (hw : pnWF U s) :
    ∀ u ∈ (PN.crawl_worker rpc s pid).visited_rpcs,
      u ∈ s.visited_rpcs ∨ u ∈ U := by
  have hvd : ∀ (t : PN.PNState) (p : String),
      (PN.setDiscovered t p).visited_rpcs = t.visited_rpcs := by
    intro t p
    simp [PN.setDiscovered]
  have hdisc : ∀ (t : PN.PNState) (src url : String),
      url ∈ U → ∀ u ∈ (PN.discover_from_node rpc src url t).visited_rpcs,
        u ∈ t.visited_rpcs ∨ u ∈ U := by
    intro t src url hU u hu
    by_cases hv : url ∈ t.visited_rpcs
    · rw [PN_discover_eq_visited rpc src url t hv] at hu
      exact Or.inl hu
    · rw [PN_discover_eq_new rpc src url t hv] at hu
      have he : ((rpc.net url).foldl (PN.processPeer src)
          (PN.PNState.mk t.nodes t.edges t.edge_set (url :: t.visited_rpcs)
            t.stats t.status)).visited_rpcs = url :: t.visited_rpcs := by
        refine foldl_preserves
          (fun s2 : PN.PNState => s2.visited_rpcs = url :: t.visited_rpcs) _ ?_ _ _ rfl
        intro s2 b h2
        rw [PN_processPeer_visited, h2]
      rw [he] at hu
      rcases List.mem_cons.mp hu with hu | hu
      · exact Or.inr (hu ▸ hU)
      · exact Or.inl hu
  cases hg : dictGet s.nodes pid with
  | none =>
    rw [PN_crawl_worker_eq_none rpc s pid hg]
    intro u hu
    exact Or.inl hu
  | some peer_info =>
    have hU : peer_info.rpc_url ∈ U := (hw.2 pid peer_info hg).1
    cases hst : rpc.statusOf peer_info.rpc_url with
    | none =>
      rw [PN_crawl_worker_eq_down rpc s pid peer_info hg hst]
      intro u hu
      rw [hvd] at hu
      exact hdisc s pid peer_info.rpc_url hU u hu
    | some st =>
      rw [PN_crawl_worker_eq_up rpc s pid peer_info st hg hst]
      intro u hu
      rw [hvd] at hu
      have hs1 : (pnWithAccessCount (PN.add_node s pid peer_info.ip peer_info.port
          peer_info.moniker peer_info.tendermint_version true
          (rpc.abci peer_info.rpc_url) st.height)).visited_rpcs = s.visited_rpcs := by
        rw [show (pnWithAccessCount (PN.add_node s pid peer_info.ip peer_info.port
          peer_info.moniker peer_info.tendermint_version true
          (rpc.abci peer_info.rpc_url) st.height)).visited_rpcs =
          (PN.add_node s pid peer_info.ip peer_info.port peer_info.moniker
            peer_info.tendermint_version true (rpc.abci peer_info.rpc_url)
            st.height).visited_rpcs from rfl]
        exact PN_add_node_visited _ _ _ _ _ _ _ _ _
      rcases hdisc _ pid peer_info.rpc_url hU u hu with hu2 | hu2
      · rw [hs1] at hu2
        exact Or.inl hu2
      · exact Or.inr hu2

lemma PN_runWorkers_visited {U : Finset String} (rpc : Rpc) (pids : List String) :
    ∀ (s : PN.PNState), netClosed rpc U → pnWF U s →
      ∀ u ∈ (PN.runWorkers rpc s pids).visited_rpcs, u ∈ s.visited_rpcs ∨ u ∈ U := by
  induction pids with
  | nil => intro s _ _ u hu; exact Or.inl hu
  | cons p rest ih =>
    intro s hnet hw u hu
    have h1 := ih (PN.crawl_worker rpc s p) hnet (pnWF_crawl_worker rpc s p hnet hw) u hu
    rcases h1 with h1 | h1
    · exact PN_crawl_worker_visited rpc s p hw u h1
    · exact Or.inr h1

lemma PN_setDiscovered_visited (t : PN.PNState) (p : String) :
    (PN.setDiscovered t p).visited_rpcs = t.visited_rpcs := by
  simp [PN.setDiscovered]

lemma pnWithAccessCount_visited (s : PN.PNState) :
    (pnWithAccessCount s).visited_rpcs = s.visited_rpcs := by
  simp [pnWithAccessCount]

lemma pnWithAccessCount_nodes (s : PN.PNState) :
    (pnWithAccessCount s).nodes = s.nodes := by
  simp [pnWithAccessCount]

lemma PN_discover_visited_new (rpc : Rpc) (src url : String) (t : PN.PNState)
    (hv : url ∉ t.visited_rpcs) :
    (PN.discover_from_node rpc src url t).visited_rpcs = url :: t.visited_rpcs := by
  rw [PN_discover_eq_new rpc src url t hv]
  refine foldl_preserves
    (fun s2 : PN.PNState => s2.visited_rpcs = url :: t.visited_rpcs) _ ?_ _ _ rfl
  intro s2 b h2
  rw [PN_processPeer_visited, h2]

lemma PN_setDiscovered_get (t : PN.PNState) (pid : String)
    (hp : pid ∈ dictKeys t.nodes) :
    ∃ m, dictGet (PN.setDiscovered t pid).nodes pid = some m ∧
      m.discovered = true := by
  obtain ⟨v, hv⟩ := dictGet_isSome_of_mem hp
  refine ⟨{ v with discovered := true }, ?_, rfl⟩
  simp only [PN.setDiscovered]
  rw [dictGet_dictUpdate_self, hv]
  rfl

lemma PN_crawl_worker_disc (rpc : Rpc) (s : PN.PNState) (pid : String)
    (hp : pid ∈ dictKeys s.nodes) :
    ∃ m, dictGet (PN.crawl_worker rpc s pid).nodes pid = some m ∧
      m.discovered = true := by
  obtain ⟨peer_info, hg⟩ := dictGet_isSome_of_mem hp
  cases hst : rpc.statusOf peer_info.rpc_url with
  | none =>
    rw [PN_crawl_worker_eq_down rpc s pid peer_info hg hst]
    exact PN_setDiscovered_get _ pid
      ((pnEvolves_discover rpc pid peer_info.rpc_url s).1 pid hp)
  | some st =>
    rw [PN_crawl_worker_eq_up rpc s pid peer_info st hg hst]
    refine PN_setDiscovered_get _ pid ?_
    refine (pnEvolves_discover rpc pid peer_info.rpc_url _).1 pid ?_
    rw [pnWithAccessCount_nodes]
    exact (pnEvolves_add_node s pid peer_info.ip peer_info.port peer_info.moniker
      peer_info.tendermint_version true (rpc.abci peer_info.rpc_url) st.height).1 pid hp

lemma PN_runWorkers_disc (rpc : Rpc) (pids : List String) :
    ∀ (s : PN.PNState), (∀ p ∈ pids, p ∈ dictKeys s.nodes) →
      ∀ p ∈ pids, ∃ m, dictGet (PN.runWorkers rpc s pids).nodes p = some m ∧
        m.discovered = true := by
  induction pids with
  | nil => intro s _ p hp; simp at hp
  | cons q rest ih =>
    intro s hkeys p hp
    have hq : q ∈ dictKeys s.nodes := hkeys q (List.mem_cons_self _ _)
    rcases List.mem_cons.mp hp with hp | hp
    · subst hp
      obtain ⟨m, hm, hd⟩ := PN_crawl_worker_disc rpc s p hq
      obtain ⟨m2, hm2, -, -, hd2⟩ :=
        (pnEvolves_runWorkers rpc rest (PN.crawl_worker rpc s p)).2.2 p m hm
      exact ⟨m2, hm2, hd2 hd⟩
    · exact ih (PN.crawl_worker rpc s q)
        (fun p2 hp2 => (pnEvolves_crawl_worker rpc s q).1 p2
          (hkeys p2 (List.mem_cons_of_mem _ hp2))) p hp

lemma PN_crawl_worker_keys_stable (rpc : Rpc) (s : PN.PNState) (pid : String)
    (hnv : ∀ u ∈ (PN.crawl_worker rpc s pid).visited_rpcs, u ∈ s.visited_rpcs) :
    dictKeys (PN.crawl_worker rpc s pid).nodes = dictKeys s.nodes := by
  cases hg : dictGet s.nodes pid with
  | none => rw [PN_crawl_worker_eq_none rpc s pid hg]
  | some peer_info =>
    cases hst : rpc.statusOf peer_info.rpc_url with
    | none =>
      rw [PN_crawl_worker_eq_down rpc s pid peer_info hg hst] at hnv ⊢
      have hv : peer_info.rpc_url ∈ s.visited_rpcs := by
        by_contra hv
        have hvd := PN_discover_visited_new rpc pid peer_info.rpc_url s hv
        refine hv (hnv peer_info.rpc_url ?_)
        rw [PN_setDiscovered_visited, hvd]
        exact List.mem_cons_self _ _
      rw [PN_discover_eq_visited rpc pid peer_info.rpc_url s hv, PN_setDiscovered_keys]
    | some st =>
      rw [PN_crawl_worker_eq_up rpc s pid peer_info st hg hst] at hnv ⊢
      have hvt : (pnWithAccessCount (PN.add_node s pid peer_info.ip peer_info.port
          peer_info.moniker peer_info.tendermint_version true
          (rpc.abci peer_info.rpc_url) st.height)).visited_rpcs = s.visited_rpcs := by
        rw [pnWithAccessCount_visited, PN_add_node_visited]
      have hkt : dictKeys (pnWithAccessCount (PN.add_node s pid peer_info.ip
          peer_info.port peer_info.moniker peer_info.tendermint_version true
          (rpc.abci peer_info.rpc_url) st.height)).nodes = dictKeys s.nodes := by
        rw [pnWithAccessCount_nodes,
          PN_add_node_nodes_merge s pid peer_info.ip peer_info.port peer_info.moniker
            peer_info.tendermint_version true (rpc.abci peer_info.rpc_url) st.height
            peer_info hg, dictKeys_dictUpdate]
      have hv : peer_info.rpc_url ∈ s.visited_rpcs := by
        by_contra hv
        rw [← hvt] at hv
        have hvd := PN_discover_visited_new rpc pid peer_info.rpc_url _ hv
        refine hv ?_
        rw [hvt]
        refine hnv peer_info.rpc_url ?_
        rw [PN_setDiscovered_visited, hvd]
        exact List.mem_cons_self _ _
      rw [PN_setDiscovered_keys, PN_discover_eq_visited rpc pid peer_info.rpc_url _
        (by rw [hvt]; exact hv), hkt]

lemma PN_runWorkers_keys_stable (rpc : Rpc) (pids : List String) :
    ∀ (s : PN.PNState),
      (∀ u ∈ (PN.runWorkers rpc s pids).visited_rpcs, u ∈ s.visited_rpcs) →
      dictKeys (PN.runWorkers rpc s pids).nodes = dictKeys s.nodes := by
  induction pids with
  | nil => intro s _; rfl
  | cons q rest ih =>
    intro s hnv
    have hv1 : ∀ u ∈ (PN.crawl_worker rpc s q).visited_rpcs, u ∈ s.visited_rpcs := by
      intro u hu
      exact hnv u ((pnEvolves_runWorkers rpc rest (PN.crawl_worker rpc s q)).2.1 u hu)
    have hv2 : ∀ u ∈ (PN.runWorkers rpc (PN.crawl_worker rpc s q) rest).visited_rpcs,
        u ∈ (PN.crawl_worker rpc s q).visited_rpcs := by
      intro u hu
      exact (pnEvolves_crawl_worker rpc s q).2.1 u (hnv u hu)
    calc dictKeys (PN.runWorkers rpc (PN.crawl_worker rpc s q) rest).nodes
        = dictKeys (PN.crawl_worker rpc s q).nodes := ih (PN.crawl_worker rpc s q) hv2
      _ = dictKeys s.nodes := PN_crawl_worker_keys_stable rpc s q hv1

lemma pn_frontier_sub_keys {s : PN.PNState} {k : String}
    (h : k ∈ PN.pnFrontier s) : k ∈ dictKeys s.nodes := by
  obtain ⟨p, hp, he⟩ := List.mem_map.mp h
  exact he ▸ List.mem_map_of_mem Prod.fst (List.mem_of_mem_filter hp)

lemma pn_mem_frontier_iff (s : PN.PNState) (hn : (dictKeys s.nodes).Nodup)
    (k : String) :
    k ∈ PN.pnFrontier s ↔ ∃ n, dictGet s.nodes k = some n ∧
      n.discovered = false ∧ n.rpc_url ∉ s.visited_rpcs := by
  constructor
  · intro h
    obtain ⟨p, hp, he⟩ := List.mem_map.mp h
    obtain ⟨hp1, hp2⟩ := List.mem_filter.mp hp
    simp only [Bool.and_eq_true, Bool.not_eq_true', decide_eq_false_iff_not] at hp2
    refine ⟨p.2, ?_, hp2.1, hp2.2⟩
    rw [← he]
    exact dictGet_of_mem_nodup hn hp1
  · rintro ⟨n, hg, hd, hv⟩
    refine List.mem_map.mpr ⟨(k, n), List.mem_filter.mpr ⟨mem_of_dictGet hg, ?_⟩, rfl⟩
    simp [hd, hv]

lemma pn_frontier_empty_after {U : Finset String} (rpc : Rpc) (s : PN.PNState)
    (pids : List String) (hnet : netClosed rpc U) (hw : pnWF U s)
    (hmem : ∀ p, p ∈ pids ↔ p ∈ PN.pnFrontier s)
    (hnv : ∀ u ∈ (PN.runWorkers rpc s pids).visited_rpcs, u ∈ s.visited_rpcs) :
    PN.pnFrontier (PN.runWorkers rpc s pids) = [] := by
  have hkeys : dictKeys (PN.runWorkers rpc s pids).nodes = dictKeys s.nodes :=
    PN_runWorkers_keys_stable rpc pids s hnv
  have hwt : pnWF U (PN.runWorkers rpc s pids) := pnWF_runWorkers rpc pids s hnet hw
  have hev : pnEvolves s (PN.runWorkers rpc s pids) := pnEvolves_runWorkers rpc pids s
  apply List.eq_nil_iff_forall_not_mem.mpr
  intro k hk
  obtain ⟨m, hgm, hdm, hvm⟩ :=
    (pn_mem_frontier_iff (PN.runWorkers rpc s pids) hwt.1 k).mp hk
  have hks : k ∈ dictKeys s.nodes := by
    rw [← hkeys]
    exact mem_dictKeys_of_dictGet hgm
  obtain ⟨n, hgn⟩ := dictGet_isSome_of_mem hks
  obtain ⟨m2, hm2, hurl, -, hdmono⟩ := hev.2.2 k n hgn
  rw [hgm] at hm2
  cases hm2
  by_cases hf : k ∈ PN.pnFrontier s
  · obtain ⟨m3, hm3, hd3⟩ := PN_runWorkers_disc rpc pids s
      (fun p hp => pn_frontier_sub_keys ((hmem p).mp hp)) k ((hmem k).mpr hf)
    rw [hgm] at hm3
    cases hm3
    rw [hdm] at hd3
    cases hd3
  · by_cases hd : n.discovered = true
    · have hcontr := hdmono hd
      rw [hdm] at hcontr
      cases hcontr
    · have hdf : n.discovered = false := by
        cases hb : n.discovered
        · rfl
        · exact absurd hb hd
      by_cases hvn : n.rpc_url ∈ s.visited_rpcs
      · exact hvm (hurl ▸ hev.2.1 _ hvn)
      · exact hf ((pn_mem_frontier_iff s hw.1 k).mpr ⟨n, hgn, hdf, hvn⟩)

lemma pnLoop_succ (rpc : Rpc) (σ : List String → List String) (n : Nat)
    (s : PN.PNState) :
    PN.pnLoop rpc σ (n + 1) s =
      if PN.pnFrontier s = [] then { s with status := "complete" }
      else PN.pnLoop rpc σ n (PN.runWorkers rpc s (σ (PN.pnFrontier s))) := rfl

lemma pnFrontier_setStatus (s : PN.PNState) (c : String) :
    PN.pnFrontier { s with status := c } = PN.pnFrontier s := rfl

lemma pnLoop_of_nil (rpc : Rpc) (σ : List String → List String) (s : PN.PNState)
    (fuel : Nat) (hf : PN.pnFrontier s = []) (hfuel : 1 ≤ fuel) :
    PN.pnLoop rpc σ fuel s = { s with status := "complete" } := by
  cases fuel with
  | zero => omega
  | succ n => rw [pnLoop_succ, if_pos hf]

/-- Number of closed-network addresses not yet visited — the termination
measure of the crawl loop. -/
def pnUnvisited (U : Finset String) (s : PN.PNState) : Nat :=
  (U \ s.visited_rpcs.toFinset).card

lemma pnLoop_completes {U : Finset String} (rpc : Rpc) (σ : List String → List String)
    (hσ : ∀ l, List.Perm (σ l) l) (hnet : netClosed rpc U) :
    ∀ (k : Nat) (s : PN.PNState), pnWF U s → pnUnvisited U s ≤ k →
      ∀ fuel, k + 2 ≤ fuel →
        (PN.pnLoop rpc σ fuel s).status = "complete" ∧
        PN.pnFrontier (PN.pnLoop rpc σ fuel s) = [] := by
  intro k
  induction k with
  | zero =>
    intro s hw hm fuel hfuel
    cases fuel with
    | zero => omega
    | succ f =>
      rw [pnLoop_succ]
      by_cases hf : PN.pnFrontier s = []
      · rw [if_pos hf]
        exact ⟨rfl, by rw [pnFrontier_setStatus]; exact hf⟩
      · rw [if_neg hf]
        have hnv : ∀ u ∈ (PN.runWorkers rpc s (σ (PN.pnFrontier s))).visited_rpcs,
            u ∈ s.visited_rpcs := by
          intro u hu
          rcases PN_runWorkers_visited rpc (σ (PN.pnFrontier s)) s hnet hw u hu with
            h | h
          · exact h
          · by_contra hns
            have hmem : u ∈ U \ s.visited_rpcs.toFinset :=
              Finset.mem_sdiff.mpr ⟨h, fun hx => hns (List.mem_toFinset.mp hx)⟩
            have : (U \ s.visited_rpcs.toFinset) = ∅ :=
              Finset.card_eq_zero.mp (Nat.le_zero.mp hm)
            rw [this] at hmem
            exact absurd hmem (Finset.not_mem_empty u)
        have hempty := pn_frontier_empty_after rpc s (σ (PN.pnFrontier s)) hnet hw
          (fun p => (hσ (PN.pnFrontier s)).mem_iff) hnv
        rw [pnLoop_of_nil rpc σ _ f hempty (by omega)]
        exact ⟨rfl, by rw [pnFrontier_setStatus]; exact hempty⟩
  | succ k0 ih =>
    intro s hw hm fuel hfuel
    cases fuel with
    | zero => omega
    | succ f =>
      rw [pnLoop_succ]
      by_cases hf : PN.pnFrontier s = []
      · rw [if_pos hf]
        exact ⟨rfl, by rw [pnFrontier_setStatus]; exact hf⟩
      · rw [if_neg hf]
        by_cases hnv : ∀ u ∈ (PN.runWorkers rpc s (σ (PN.pnFrontier s))).visited_rpcs,
            u ∈ s.visited_rpcs
        · have hempty := pn_frontier_empty_after rpc s (σ (PN.pnFrontier s)) hnet hw
            (fun p => (hσ (PN.pnFrontier s)).mem_iff) hnv
          rw [pnLoop_of_nil rpc σ _ f hempty (by omega)]
          exact ⟨rfl, by rw [pnFrontier_setStatus]; exact hempty⟩
        · push_neg at hnv
          obtain ⟨u, hu1, hu2⟩ := hnv
          have huU : u ∈ U := by
            rcases PN_runWorkers_visited rpc (σ (PN.pnFrontier s)) s hnet hw u hu1 with
              h | h
            · exact absurd h hu2
            · exact h
          have hlt : pnUnvisited U (PN.runWorkers rpc s (σ (PN.pnFrontier s))) <
              pnUnvisited U s := by
            apply Finset.card_lt_card
            constructor
            · intro x hx
              obtain ⟨hxU, hxv⟩ := Finset.mem_sdiff.mp hx
              refine Finset.mem_sdiff.mpr ⟨hxU, fun hxs => hxv ?_⟩
              exact List.mem_toFinset.mpr
                ((pnEvolves_runWorkers rpc (σ (PN.pnFrontier s)) s).2.1 x
                  (List.mem_toFinset.mp hxs))
            · intro hsub
              have hmem : u ∈ U \ s.visited_rpcs.toFinset :=
                Finset.mem_sdiff.mpr ⟨huU, fun hx => hu2 (List.mem_toFinset.mp hx)⟩
              have := Finset.mem_sdiff.mp (hsub hmem)
              exact this.2 (List.mem_toFinset.mpr hu1)
          exact ih (PN.runWorkers rpc s (σ (PN.pnFrontier s)))
            (pnWF_runWorkers rpc _ s hnet hw) (by omega) f (by omega)

/-- C1: for a finite closed network (all synthesizable RPC addresses lie
in the finite set `U`), the crawl loop of `start_discovery` performs
finitely many iterations — enough fuel is never exhausted — halting at
the first iteration whose frontier is empty, after which the run status
is `"complete"` and the frontier is (and stays) empty; this holds for
every serialization order of each iteration's worker batch. -/
theorem c1_crawl_terminates_complete (rpc : Rpc) (σ : List String → List String)
    (seeds : List (String × String)) (U : Finset String)
    (hσ : ∀ l, List.Perm (σ l) l) (hnet : netClosed rpc U)
    (hseeds : ∀ sd ∈ seeds, synthUrl (hostOf sd.1) ∈ U) :
    ∃ n, ∀ fuel, n ≤ fuel →
      (PN.start_discovery rpc σ fuel seeds).status = "complete" ∧
      PN.pnFrontier (PN.start_discovery rpc σ fuel seeds) = [] := by
  refine ⟨U.card + 2, ?_⟩
  intro fuel hfuel
  have hw := pnWF_seedPhase rpc seeds hnet hseeds
  have hm : pnUnvisited U (seeds.foldl (PN.seedStep rpc) PN.initState) ≤ U.card :=
    Finset.card_le_card Finset.sdiff_subset
  exact pnLoop_completes rpc σ hσ hnet U.card _ hw hm fuel hfuel

/-- Witness for C1: the empty network and seed list. -/
theorem c1_crawl_terminates_complete_witness :
    ∃ n, ∀ fuel, n ≤ fuel →
      (PN.start_discovery rpcNone id fuel []).status = "complete" ∧
      PN.pnFrontier (PN.start_discovery rpcNone id fuel []) = [] :=
  c1_crawl_terminates_complete rpcNone id [] ∅ (fun l => List.Perm.refl l)
    (fun url p hp => absurd hp (List.not_mem_nil p))
    (fun sd hsd => absurd hsd (List.not_mem_nil sd))

/-! ### Edge endpoints are always registered nodes -/

/-- Every edge's endpoints are keys of the node registry. -/
def pnEdgesClosed (s : PN.PNState) : Prop :=
  ∀ e ∈ s.edges, e.source ∈ dictKeys s.nodes ∧ e.target ∈ dictKeys s.nodes

/-- Every edge's endpoints are keys of `discovered_peers`. -/
def dpEdgesClosed (s : DP.DPState) : Prop :=
  ∀ e ∈ s.edges, e.source ∈ dictKeys s.discovered_peers ∧
    e.target ∈ dictKeys s.discovered_peers

lemma PN_add_node_key_self (s : PN.PNState) (pid ip : String) (port : Nat)
    (mk v : String) (ra : Bool) (dv hh : Option String) :
    pid ∈ dictKeys (PN.add_node s pid ip port mk v ra dv hh).nodes := by
  cases hg : dictGet s.nodes pid with
  | none =>
    rw [PN_add_node_nodes_new s pid ip port mk v ra dv hh hg, dictKeys_append]
    exact List.mem_append_right _ (List.mem_singleton.mpr rfl)
  | some n0 =>
    rw [PN_add_node_nodes_merge s pid ip port mk v ra dv hh n0 hg, dictKeys_dictUpdate]
    exact mem_dictKeys_of_dictGet hg

lemma PN_add_node_closed (s : PN.PNState) (pid ip : String) (port : Nat)
    (mk v : String) (ra : Bool) (dv hh : Option String) (h : pnEdgesClosed s) :
    pnEdgesClosed (PN.add_node s pid ip port mk v ra dv hh) := by
  intro e he
  rw [PN_add_node_edges] at he
  obtain ⟨h1, h2⟩ := h e he
  exact ⟨(pnEvolves_add_node s pid ip port mk v ra dv hh).1 _ h1,
    (pnEvolves_add_node s pid ip port mk v ra dv hh).1 _ h2⟩

lemma PN_add_edge_closed (s : PN.PNState) (a b : String)
    (ha : a ∈ dictKeys s.nodes) (hb : b ∈ dictKeys s.nodes) (h : pnEdgesClosed s) :
    pnEdgesClosed (PN.add_edge s a b) := by
  intro e he
  rw [PN_add_edge_nodes]
  rcases PN_add_edge_edges s a b with heq | heq <;> rw [heq] at he
  · exact h e he
  · rcases List.mem_append.mp he with he | he
    · exact h e he
    · rw [List.mem_singleton.mp he]
      exact ⟨ha, hb⟩

/-- Combined invariant threaded through the peer loop: edges closed, and
the source identity (when non-empty) is registered. -/
def pnClosedFrom (src : String) (s : PN.PNState) : Prop :=
  pnEdgesClosed s ∧ (src = "" ∨ src ∈ dictKeys s.nodes)

lemma PN_processPeer_closedFrom (src : String) (s : PN.PNState) (peer : PeerEntry)
    (h : pnClosedFrom src s) : pnClosedFrom src (PN.processPeer src s peer) := by
  unfold PN.processPeer
  by_cases h1 : (!isTruthy peer.id || !isTruthy peer.remote_ip) = true
  · rw [if_pos h1]; exact h
  · rw [if_neg h1]
    by_cases h2 : is_private_ip (peer.remote_ip.getD "") = true
    · rw [if_pos h2]; exact h
    · rw [if_neg h2]
      have hc1 : pnEdgesClosed (PN.add_node s (peer.id.getD "") (peer.remote_ip.getD "")
          26656 (peer.moniker.getD "unknown") (peer.version.getD "unknown")
          false none none) :=
        PN_add_node_closed s _ _ _ _ _ _ _ _ h.1
      have hsrc1 : src = "" ∨ src ∈ dictKeys (PN.add_node s (peer.id.getD "")
          (peer.remote_ip.getD "") 26656 (peer.moniker.getD "unknown")
          (peer.version.getD "unknown") false none none).nodes := by
        rcases h.2 with hs | hs
        · exact Or.inl hs
        · exact Or.inr ((pnEvolves_add_node s _ _ _ _ _ _ _ _).1 _ hs)
      by_cases h3 : (src != "") = true
      · rw [if_pos h3]
        have hne : src ≠ "" := by simpa using h3
        have hsrc : src ∈ dictKeys (PN.add_node s (peer.id.getD "")
            (peer.remote_ip.getD "") 26656 (peer.moniker.getD "unknown")
            (peer.version.getD "unknown") false none none).nodes := by
          rcases hsrc1 with hs | hs
          · exact absurd hs hne
          · exact hs
        refine ⟨PN_add_edge_closed _ _ _ hsrc (PN_add_node_key_self s _ _ _ _ _ _ _ _)
          hc1, ?_⟩
        rw [show (PN.add_edge (PN.add_node s (peer.id.getD "") (peer.remote_ip.getD "")
          26656 (peer.moniker.getD "unknown") (peer.version.getD "unknown")
          false none none) src (peer.id.getD "")).nodes =
          (PN.add_node s (peer.id.getD "") (peer.remote_ip.getD "")
          26656 (peer.moniker.getD "unknown") (peer.version.getD "unknown")
          false none none).nodes from PN_add_edge_nodes _ _ _]
        exact Or.inr hsrc
      · rw [if_neg h3]
        exact ⟨hc1, hsrc1⟩

lemma PN_discover_closed (rpc : Rpc) (src url : String) (s : PN.PNState)
    (h : pnEdgesClosed s) (hs : src = "" ∨ src ∈ dictKeys s.nodes) :
    pnEdgesClosed (PN.discover_from_node rpc src url s) := by
  by_cases hv : url ∈ s.visited_rpcs
  · rw [PN_discover_eq_visited rpc src url s hv]; exact h
  · rw [PN_discover_eq_new rpc src url s hv]
    refine (foldl_preserves (pnClosedFrom src) _
      (fun s2 b h2 => PN_processPeer_closedFrom src s2 b h2) _ _ ⟨?_, ?_⟩).1
    · intro e he
      exact h e he
    · exact hs

lemma pnWithAccessCount_edges (s : PN.PNState) :
    (pnWithAccessCount s).edges = s.edges := by
  simp [pnWithAccessCount]

lemma PN_setDiscovered_edges (s : PN.PNState) (pid : String) :
    (PN.setDiscovered s pid).edges = s.edges := by
  simp [PN.setDiscovered]

lemma PN_setDiscovered_closed (s : PN.PNState) (pid : String) (h : pnEdgesClosed s) :
    pnEdgesClosed (PN.setDiscovered s pid) := by
  intro e he
  rw [PN_setDiscovered_edges] at he
  rw [PN_setDiscovered_keys]
  exact h e he

lemma pnWithAccessCount_closed (s : PN.PNState) (h : pnEdgesClosed s) :
    pnEdgesClosed (pnWithAccessCount s) := by
  intro e he
  rw [pnWithAccessCount_edges] at he
  rw [show dictKeys (pnWithAccessCount s).nodes = dictKeys s.nodes from
    by rw [pnWithAccessCount_nodes]]
  exact h e he

lemma PN_crawl_worker_closed (rpc : Rpc) (s : PN.PNState) (pid : String)
    (h : pnEdgesClosed s) : pnEdgesClosed (PN.crawl_worker rpc s pid) := by
  cases hg : dictGet s.nodes pid with
  | none => rw [PN_crawl_worker_eq_none rpc s pid hg]; exact h
  | some peer_info =>
    have hpk : pid ∈ dictKeys s.nodes := mem_dictKeys_of_dictGet hg
    cases hst : rpc.statusOf peer_info.rpc_url with
    | none =>
      rw [PN_crawl_worker_eq_down rpc s pid peer_info hg hst]
      exact PN_setDiscovered_closed _ _
        (PN_discover_closed rpc pid peer_info.rpc_url s h (Or.inr hpk))
    | some st =>
      rw [PN_crawl_worker_eq_up rpc s pid peer_info st hg hst]
      refine PN_setDiscovered_closed _ _ (PN_discover_closed rpc pid peer_info.rpc_url _
        (pnWithAccessCount_closed _ (PN_add_node_closed s _ _ _ _ _ _ _ _ h)) ?_)
      refine Or.inr ?_
      rw [pnWithAccessCount_nodes]
      exact (pnEvolves_add_node s pid peer_info.ip peer_info.port peer_info.moniker
        peer_info.tendermint_version true (rpc.abci peer_info.rpc_url) st.height).1
        pid hpk

lemma PN_seedStep_closed (rpc : Rpc) (s : PN.PNState) (seed : String × String)
    (h : pnEdgesClosed s) : pnEdgesClosed (PN.seedStep rpc s seed) := by
  cases hst : rpc.statusOf seed.1 with
  | none => rw [PN_seedStep_eq_none rpc s seed hst]; exact h
  | some st =>
    by_cases hid : isTruthy st.id = true
    · rw [PN_seedStep_eq_go rpc s seed st hst hid]
      exact PN_setDiscovered_closed _ _ (PN_discover_closed rpc _ seed.1 _
        (PN_add_node_closed s _ _ _ _ _ _ _ _ h)
        (Or.inr (PN_add_node_key_self s _ _ _ _ _ _ _ _)))
    · rw [PN_seedStep_eq_skip rpc s seed st hst (by simpa using hid)]
      exact h

lemma PN_start_discovery_closed (rpc : Rpc) (σ : List String → List String)
    (fuel : Nat) (seeds : List (String × String)) :
    pnEdgesClosed (PN.start_discovery rpc σ fuel seeds) := by
  have hseed : pnEdgesClosed (seeds.foldl (PN.seedStep rpc) PN.initState) := by
    refine foldl_preserves pnEdgesClosed _
      (fun s2 sd h2 => PN_seedStep_closed rpc s2 sd h2) _ _ ?_
    intro e he
    simp [PN.initState] at he
  have hloop : ∀ (n : Nat) (s : PN.PNState), pnEdgesClosed s →
      pnEdgesClosed (PN.pnLoop rpc σ n s) := by
    intro n
    induction n with
    | zero => intro s h; exact h
    | succ k ih =>
      intro s h
      rw [pnLoop_succ]
      by_cases hf : PN.pnFrontier s = []
      · rw [if_pos hf]
        intro e he
        exact h e he
      · rw [if_neg hf]
        exact ih _ (foldl_preserves pnEdgesClosed _
          (fun s2 p h2 => PN_crawl_worker_closed rpc s2 p h2) _ _ h)
  exact hloop fuel _ hseed

lemma DP_add_edge_edges (s : DP.DPState) (a b : String) :
    (DP.add_edge s a b).edges = s.edges ∨
    (DP.add_edge s a b).edges = s.edges ++ [{ source := a, target := b }] := by
  by_cases h : sortPair a b ∈ s.edge_set
  · rw [DP_add_edge_mem s a b h]
    exact Or.inl rfl
  · exact Or.inr (DP_add_edge_not_mem s a b h).1

/-- Combined invariant threaded through the discover_peers.py peer loop. -/
def dpClosedFrom (src : String) (s : DP.DPState) : Prop :=
  dpEdgesClosed s ∧ (src = "" ∨ src ∈ dictKeys s.discovered_peers)

lemma DP_processPeer_keys_mono (src : String) (s : DP.DPState) (peer : PeerEntry) :
    ∀ k, k ∈ dictKeys s.discovered_peers →
      k ∈ dictKeys (DP.processPeer src s peer).discovered_peers := by
  intro k hk
  rcases DP_processPeer_nodes src s peer with he | ⟨pid, ip, mk, v, -, he⟩ <;> rw [he]
  · exact hk
  · rw [dictKeys_append]
    exact List.mem_append_left _ hk

lemma DP_processPeer_closedFrom (src : String) (s : DP.DPState) (peer : PeerEntry)
    (h : dpClosedFrom src s) : dpClosedFrom src (DP.processPeer src s peer) := by
  unfold DP.processPeer
  by_cases h1 : (!isTruthy peer.id || !isTruthy peer.remote_ip) = true
  · rw [if_pos h1]; exact h
  · rw [if_neg h1]
    by_cases h2 : is_private_ip (peer.remote_ip.getD "") = true
    · rw [if_pos h2]; exact h
    · rw [if_neg h2]
      cases hg : dictGet s.discovered_peers (peer.id.getD "") with
      | none =>
        by_cases h3 : (src != "") = true
        · rw [if_pos h3]
          have hne : src ≠ "" := by simpa using h3
          have hs0 : src ∈ dictKeys s.discovered_peers := by
            rcases h.2 with hs | hs
            · exact absurd hs hne
            · exact hs
          refine ⟨?_, ?_⟩
          · intro e he
            rw [DP_add_edge_nodes]
            have hkeys2 : ∀ k, k ∈ dictKeys s.discovered_peers →
                k ∈ dictKeys (s.discovered_peers ++ [(peer.id.getD "",
                  DP.peerNode (peer.id.getD "") (peer.remote_ip.getD "")
                    (peer.moniker.getD "unknown") (peer.version.getD "unknown"))]) := by
              intro k hk
              rw [dictKeys_append]
              exact List.mem_append_left _ hk
            have hpid : (peer.id.getD "") ∈ dictKeys (s.discovered_peers ++
                [(peer.id.getD "", DP.peerNode (peer.id.getD "")
                  (peer.remote_ip.getD "") (peer.moniker.getD "unknown")
                  (peer.version.getD "unknown"))]) := by
              rw [dictKeys_append]
              exact List.mem_append_right _ (List.mem_singleton.mpr rfl)
            rcases DP_add_edge_edges
              (DP.DPState.mk (s.discovered_peers ++ [(peer.id.getD "",
                DP.peerNode (peer.id.getD "") (peer.remote_ip.getD "")
                  (peer.moniker.getD "unknown") (peer.version.getD "unknown"))])
                s.edges s.edge_set s.visited_rpcs) src (peer.id.getD "") with
              heq | heq <;> rw [heq] at he
            · obtain ⟨ha, hb⟩ := h.1 e he
              exact ⟨hkeys2 _ ha, hkeys2 _ hb⟩
            · rcases List.mem_append.mp he with he | he
              · obtain ⟨ha, hb⟩ := h.1 e he
                exact ⟨hkeys2 _ ha, hkeys2 _ hb⟩
              · rw [List.mem_singleton.mp he]
                exact ⟨hkeys2 _ hs0, hpid⟩
          · rw [DP_add_edge_nodes]
            refine Or.inr ?_
            rw [dictKeys_append]
            exact List.mem_append_left _ hs0
        · rw [if_neg h3]
          refine ⟨?_, ?_⟩
          · intro e he
            obtain ⟨ha, hb⟩ := h.1 e he
            rw [dictKeys_append]
            exact ⟨List.mem_append_left _ ha, List.mem_append_left _ hb⟩
          · rcases h.2 with hs | hs
            · exact Or.inl hs
            · refine Or.inr ?_
              rw [dictKeys_append]
              exact List.mem_append_left _ hs
      | some n0 =>
        by_cases h3 : (src != "") = true
        · rw [if_pos h3]
          have hne : src ≠ "" := by simpa using h3
          have hs0 : src ∈ dictKeys s.discovered_peers := by
            rcases h.2 with hs | hs
            · exact absurd hs hne
            · exact hs
          refine ⟨?_, ?_⟩
          · intro e he
            rw [DP_add_edge_nodes]
            rcases DP_add_edge_edges s src (peer.id.getD "") with heq | heq <;>
              rw [heq] at he
            · exact h.1 e he
            · rcases List.mem_append.mp he with he | he
              · exact h.1 e he
              · rw [List.mem_singleton.mp he]
                exact ⟨hs0, mem_dictKeys_of_dictGet hg⟩
          · rw [DP_add_edge_nodes]
            exact h.2
        · rw [if_neg h3]
          exact h

lemma DP_discover_closed (rpc : Rpc) (src url : String) (s : DP.DPState)
    (h : dpEdgesClosed s) (hs : src = "" ∨ src ∈ dictKeys s.discovered_peers) :
    dpEdgesClosed (DP.discover_from_node rpc src url s) := by
  unfold DP.discover_from_node
  by_cases hv : url ∈ s.visited_rpcs
  · rw [if_pos hv]; exact h
  · rw [if_neg hv]
    refine (foldl_preserves (dpClosedFrom src) _
      (fun s2 b h2 => DP_processPeer_closedFrom src s2 b h2) _ _ ⟨?_, ?_⟩).1
    · intro e he
      exact h e he
    · exact hs

/-- C10: both variants' `discover_from_node` preserve the invariant that
every recorded edge's endpoints are registered nodes, provided the source
identity is registered (or empty) when the call is made — which is how
every call site invokes it; consequently the whole web-server run keeps
the invariant at every operation boundary, and nodes are never removed
(the key set only grows). -/
theorem c10_edge_endpoints_registered :
    (∀ (rpc : Rpc) (src url : String) (s : PN.PNState),
      pnEdgesClosed s → (src = "" ∨ src ∈ dictKeys s.nodes) →
      pnEdgesClosed (PN.discover_from_node rpc src url s)) ∧
    (∀ (rpc : Rpc) (src url : String) (s : DP.DPState),
      dpEdgesClosed s → (src = "" ∨ src ∈ dictKeys s.discovered_peers) →
      dpEdgesClosed (DP.discover_from_node rpc src url s)) ∧
    (∀ (rpc : Rpc) (src url : String) (s : PN.PNState) (k : String),
      k ∈ dictKeys s.nodes → k ∈ dictKeys (PN.discover_from_node rpc src url s).nodes) ∧
    (∀ (rpc : Rpc) (σ : List String → List String) (fuel : Nat)
      (seeds : List (String × String)),
      pnEdgesClosed (PN.start_discovery rpc σ fuel seeds)) := by
  refine ⟨PN_discover_closed, DP_discover_closed, ?_, PN_start_discovery_closed⟩
  intro rpc src url s k hk
  exact (pnEvolves_discover rpc src url s).1 k hk

/-- Witness for C10 at concrete inputs. -/
theorem c10_edge_endpoints_registered_witness :
    pnEdgesClosed (PN.discover_from_node rpcNone "" "u" PN.initState) ∧
    dpEdgesClosed (DP.discover_from_node rpcNone "" "u" DP.initState) ∧
    pnEdgesClosed (PN.start_discovery rpcNone id 2 []) := by
  refine ⟨?_, ?_, ?_⟩
  · exact c10_edge_endpoints_registered.1 rpcNone "" "u" PN.initState
      (fun e he => by simp [PN.initState] at he) (Or.inl rfl)
  · exact c10_edge_endpoints_registered.2.1 rpcNone "" "u" DP.initState
      (fun e he => by simp [DP.initState] at he) (Or.inl rfl)
  · exact c10_edge_endpoints_registered.2.2.2 rpcNone id 2 []
